import Mathlib

/-!
# webxdc marketplace generator (`generate.go`)

A shallow embedding of the catalog generator: the global `repo` catalog, the
`walk` callback given to `filepath.Walk`, `build`, `run`, `save` and `main`,
together with the lexical path functions of Go's `path` package that the
generator uses to derive the published paths.

Conventions of the embedding.

* A Go `map[string]V` is an association list `GoMap V`; a nil map is `none`
  of `Option (GoMap V)`.  A Go pointer `*T` is `Option T`, with `none` the nil
  pointer.  The order of the list is the iteration order of `range`, which Go
  leaves open: the theorems hold for every list, so for every order.
* The process state is threaded explicitly (`State`): the global `repo`, the
  catalog last written to `build/meta.json`, the outside world, and a trace of
  the calls made to `build` and `run`.
* `log.Fatalln` and a runtime panic end the computation (`Res.fatal`,
  `Res.panic`); both carry the state in which the process died.
-/

namespace Marketplace

/-! ## Go's `path` package

`path.Clean`, `path.Join` and `path.Dir` of the Go standard library, which the
generator calls; they follow the library's implementation, with its output
buffer kept as a reversed list. -/

namespace GoPath

/-- The `..` case of `path.Clean` when it can backtrack: `out.w--` followed by
`for out.w > dotdot && out.index(out.w) != '/' { out.w-- }`.  The buffer is kept
reversed, so its head is the last byte written. -/
def backtrack (dotdot : Nat) : List Char → List Char
  | [] => []
  | c :: out => if dotdot < out.length ∧ c ≠ '/' then backtrack dotdot out else out

/-- The main loop of `path.Clean`.  `rest` is `path[r:]`, `out` is the reversed
output buffer, `dotdot` the index where `..` must stop.  Every iteration
consumes at least one byte of `rest`, so `fuel = len(path)` iterations are
enough. -/
def cleanLoop (rooted : Bool) : Nat → List Char → List Char → Nat → List Char
  | 0, _, out, _ => out
  | _ + 1, [], out, _ => out
  | fuel + 1, c :: rest, out, dotdot =>
    if c = '/' then
      -- empty path element
      cleanLoop rooted fuel rest out dotdot
    else if c = '.' ∧ (rest = [] ∨ rest.head? = some '/') then
      -- . element
      cleanLoop rooted fuel rest out dotdot
    else if c = '.' ∧ rest.head? = some '.' ∧
        (rest.tail = [] ∨ rest.tail.head? = some '/') then
      -- .. element: remove to last /
      if dotdot < out.length then
        cleanLoop rooted fuel rest.tail (backtrack dotdot out) dotdot
      else if !rooted then
        let out1 := if 0 < out.length then '/' :: out else out
        let out2 := '.' :: '.' :: out1
        cleanLoop rooted fuel rest.tail out2 out2.length
      else
        cleanLoop rooted fuel rest.tail out dotdot
    else
      -- real path element: add slash if needed, then copy the element
      let out1 :=
        if (rooted ∧ out.length ≠ 1) ∨ (!rooted ∧ out.length ≠ 0) then '/' :: out else out
      let elem := (c :: rest).takeWhile (fun x => x ≠ '/')
      cleanLoop rooted fuel ((c :: rest).dropWhile (fun x => x ≠ '/')) (elem.reverse ++ out1) dotdot

/-- Go `path.Clean` on the bytes of the path.  The bytes `/` and `.` are ASCII,
so working on characters of a UTF-8 string gives the same result. -/
def cleanChars (path : List Char) : List Char :=
  if path = [] then ['.']
  else
    let rooted := decide (path.head? = some '/')
    let out :=
      if rooted then cleanLoop rooted path.length path.tail ['/'] 1
      else cleanLoop rooted path.length path [] 0
    if out.length = 0 then ['.'] else out.reverse

/-- Go `path.Clean`. -/
def clean (path : String) : String := String.mk (cleanChars path.data)

/-- The buffer loop of `path.Join`: empty leading elements are ignored, the
others are separated by a slash. -/
def joinBuf : List Char → List String → List Char
  | buf, [] => buf
  | buf, e :: es =>
    if 0 < buf.length ∨ e ≠ "" then
      joinBuf ((if 0 < buf.length then buf ++ ['/'] else buf) ++ e.data) es
    else joinBuf buf es

/-- Go `path.Join`. -/
def join (elems : List String) : String :=
  if (elems.map String.length).sum = 0 then ""
  else clean (String.mk (joinBuf [] elems))

/-- Go `path.Dir`: everything up to and including the final slash
(`path.Split`), cleaned. -/
def dir (p : String) : String :=
  clean (String.mk (p.data.reverse.dropWhile (fun x => x ≠ '/')).reverse)

/-- The path elements `segs`, each preceded by a slash: `/a/b/c`. -/
def slashed : List (List Char) → List Char
  | [] => []
  | g :: segs => '/' :: (g ++ slashed segs)

/-- The relative path made of the elements `g :: segs`: `a/b/c`. -/
def relPath (g : List Char) (segs : List (List Char)) : List Char := g ++ slashed segs

/-- The reversed output buffer of `path.Clean` after the plain elements `segs`
have been copied behind `out`. -/
def copied : List Char → List (List Char) → List Char
  | out, [] => out
  | out, g :: segs => copied (g.reverse ++ (if out.length ≠ 0 then '/' :: out else out)) segs

/-- A plain path element, as characters: non-empty, without a slash, and
neither `.` nor `..`. -/
def plainChars (g : List Char) : Prop := g ≠ [] ∧ '/' ∉ g ∧ g ≠ ['.'] ∧ g ≠ ['.', '.']

instance (g : List Char) : Decidable (plainChars g) := by
  unfold plainChars; infer_instance

/-- A string that is a single plain path element. -/
def plainSeg (s : String) : Bool := decide (plainChars s.data)

end GoPath

/-! ## Data model -/

/-- A Go `map[string]V` as an association list; the first binding of a key is
the one the map holds. -/
abbrev GoMap (V : Type) := List (String × V)

namespace GoMap

/-- The comma-ok lookup `v, ok := m[k]`. -/
def get? {V : Type} : GoMap V → String → Option V
  | [], _ => none
  | (k, v) :: m, x => if k = x then some v else get? m x

/-- The assignment `m[k] = v`: an existing key keeps its place, a new key is
added. -/
def set {V : Type} : GoMap V → String → V → GoMap V
  | [], x, v => [(x, v)]
  | (k, w) :: m, x, v => if k = x then (k, v) :: m else (k, w) :: set m x v

/-- The keys visited by `for i := range m`; a nil map has none. -/
def keys {V : Type} (m : Option (GoMap V)) : List String :=
  (m.getD []).map Prod.fst

/-- The plain index expression `m[k]` on a map of pointers: a nil map or a
missing key gives the zero value, the nil pointer. -/
def index {V : Type} (m : Option (GoMap (Option V))) (k : String) : Option V :=
  ((m.getD []).get? k).join

end GoMap

/-- Go struct `Release`. -/
structure Release where
  Image : String
  Command : String
  SourceTarball : String
  WebXDCDownload : String
  XdcSha512sum : String
  TarSha512sum : String
deriving DecidableEq, Repr

/-- Go struct `AppMetadata`, used both for a decoded manifest and for a catalog
entry.  `SupportedReleases` is a slice (`none` is the nil slice), `Releases` a
map of pointers. -/
structure AppMetadata where
  Name : String
  UniqueId : String
  ShortDescription : String
  Description : String
  Source : String
  Banner : String
  SupportedReleases : Option (List String)
  Releases : Option (GoMap (Option Release))
deriving DecidableEq, Repr

/-- Go struct `RepositoryMetadata`: the catalog. -/
structure RepositoryMetadata where
  Apps : Option (GoMap (Option AppMetadata))
deriving DecidableEq, Repr

/-- The comma-ok lookup `repo.Apps[uid]`: `none` when the key is missing (or
the map nil), otherwise the stored pointer. -/
def RepositoryMetadata.slot (r : RepositoryMetadata) (uid : String) :
    Option (Option AppMetadata) :=
  (r.Apps.getD []).get? uid

/-- The catalog entry stored under an identity, if the key is present and its
pointer is not nil. -/
def RepositoryMetadata.entry (r : RepositoryMetadata) (uid : String) : Option AppMetadata :=
  (r.slot uid).join

/-- The build record slot of `(uid, tag)`: `none` when the catalog has no such
key, otherwise the stored pointer. -/
def RepositoryMetadata.record (r : RepositoryMetadata) (uid tag : String) :
    Option (Option Release) :=
  match r.entry uid with
  | none => none
  | some a => (a.Releases.getD []).get? tag

/-- The catalog after a write through the pointer stored under `uid`. -/
def RepositoryMetadata.withEntry (r : RepositoryMetadata) (uid : String) (a : AppMetadata) :
    RepositoryMetadata :=
  ⟨some (GoMap.set (r.Apps.getD []) uid (some a))⟩

/-- The catalog after lines 153 to 155 of `walk`, for the entry `a` stored
under `uid`: a nil `Releases` map is replaced by an empty one. -/
def RepositoryMetadata.initReleases (r : RepositoryMetadata) (uid : String) (a : AppMetadata) :
    RepositoryMetadata :=
  if a.Releases.isNone then r.withEntry uid { a with Releases := some [] } else r

/-- The catalog after the assignment `repo.Apps[uid].Releases[tag] = rel`, for
the entry `a` stored under `uid`. -/
def RepositoryMetadata.addRecord (r : RepositoryMetadata) (uid : String) (a : AppMetadata)
    (tag : String) (rel : Release) : RepositoryMetadata :=
  r.withEntry uid { a with Releases := some (GoMap.set (a.Releases.getD []) tag (some rel)) }

/-- The composite literal of lines 157 to 164 of `walk`: the build record of
release `tag` of `app`, from its release spec and the two digests. -/
def releaseRecord (app : AppMetadata) (tag : String) (rel : Release) (tar xdc : String) :
    Release :=
  { Image := rel.Image
    Command := rel.Command
    SourceTarball := GoPath.join [app.UniqueId, tag, app.UniqueId ++ ".tar.gz"]
    WebXDCDownload := GoPath.join [app.UniqueId, tag, app.UniqueId ++ ".xdc"]
    TarSha512sum := tar
    XdcSha512sum := xdc }

/-! ## Process state, outside world and outcomes -/

/-- Ghost trace of the calls the generator makes: every entry into `build`
(with the in-memory catalog and the catalog on disk at that moment) and every
external command started by `run`. -/
inductive Event where
  | build (uniqueId tag : String) (mem : RepositoryMetadata)
      (disk : Option RepositoryMetadata)
  | run (name : String) (args : List String)
deriving DecidableEq, Repr

/-- The outside world as the generator sees it.  `none` is a non-nil `err`. -/
structure Env (W : Type) where
  /-- The call `os.WriteFile(name, json.MarshalIndent(repo), 0750)`. -/
  writeFile : W → String → RepositoryMetadata → Option W
  /-- The call `os.MkdirTemp(os.TempDir(), "tmpbld")`. -/
  mkdirTemp : W → Option (String × W)
  /-- The call `os.MkdirAll(dir, 0750)`, whose error the generator ignores. -/
  mkdirAll : W → String → W
  /-- The call `exec.Command(name, args...).Run()`. -/
  run : W → String → List String → Option W
  /-- Opening a file and hashing its content with SHA-512, in hexadecimal. -/
  sha512 : W → String → Option String

/-- The state of the process. -/
structure State (W : Type) where
  /-- The global variable `repo`. -/
  repo : RepositoryMetadata
  /-- The catalog that `build/meta.json` holds: the one of the last completed
  write, before that the one the file held at start-up; `none` when the file
  does not exist.  A failed write ends the process, and what it leaves in the
  file is not modelled. -/
  disk : Option RepositoryMetadata
  world : W
  trace : List Event

/-- Which `log.Fatalln` ended the process. -/
inductive Cause where
  | unmarshalMeta
  | writeFile
  | mkdirTemp
  | run
  | sha512
deriving DecidableEq, Repr

/-- Result of a computation: a normal return, `log.Fatalln` (exit status 1),
or a runtime panic. -/
inductive Res (σ α : Type) where
  | ok (a : α) (s : σ)
  | fatal (c : Cause) (s : σ)
  | panic (s : σ)

/-- The state in which the computation returned or the process died. -/
def Res.state {σ α : Type} : Res σ α → σ
  | .ok _ s => s
  | .fatal _ s => s
  | .panic s => s

/-- Whether the computation returned normally. -/
def Res.isOk {σ α : Type} : Res σ α → Bool
  | .ok _ _ => true
  | _ => false

/-- Whether the process died in a runtime panic. -/
def Res.isPanic {σ α : Type} : Res σ α → Bool
  | .panic _ => true
  | _ => false

/-- Whether the process was ended by `log.Fatalln`. -/
def Res.isFatal {σ α : Type} : Res σ α → Bool
  | .fatal _ _ => true
  | _ => false

/-- The cause of death, for a computation ended by `log.Fatalln`. -/
def Res.cause {σ α : Type} : Res σ α → Option Cause
  | .fatal c _ => some c
  | _ => none

/-- The `(identity, tag)` pairs of the `build` calls in a trace, in order. -/
def buildCalls : List Event → List (String × String)
  | [] => []
  | .build uid tag _ _ :: es => (uid, tag) :: buildCalls es
  | .run _ _ :: es => buildCalls es

/-- The value returned, for a computation that returned. -/
def Res.value? {σ α : Type} : Res σ α → Option α
  | .ok a _ => some a
  | _ => none

/-- Computations of the generator over the process state. -/
def M (W α : Type) : Type := State W → Res (State W) α

instance (W : Type) : Monad (M W) where
  pure a := fun s => .ok a s
  bind x f := fun s =>
    match x s with
    | .ok a s1 => f a s1
    | .fatal c s1 => .fatal c s1
    | .panic s1 => .panic s1

/-- Go `log.Fatalln`. -/
def fatal {W α : Type} (c : Cause) : M W α := fun s => .fatal c s

/-- A runtime panic. -/
def panic {W α : Type} : M W α := fun s => .panic s

/-- Read the process state. -/
def getState {W : Type} : M W (State W) := fun s => .ok s s

/-- Add an event to the trace. -/
def emit {W : Type} (e : Event) : M W Unit :=
  fun s => .ok () { s with trace := s.trace ++ [e] }

/-! ## The generator -/

/-- Go `sha512String`: fatal when the file cannot be opened or read. -/
def sha512String {W : Type} (env : Env W) (file : String) : M W String := fun s =>
  match env.sha512 s.world file with
  | none => .fatal .sha512 s
  | some h => .ok h s

/-- Go `save`: write the whole catalog to `build/meta.json`. -/
def save {W : Type} (env : Env W) : M W Unit := fun s =>
  match env.writeFile s.world "build/meta.json" s.repo with
  | none => .fatal .writeFile s
  | some w => .ok () { s with world := w, disk := some s.repo }

/-- Go `run`: log the command, start it, and die if it fails. -/
def run {W : Type} (env : Env W) (name : String) (args : List String) : M W Unit := do
  emit (.run name args)
  fun s =>
    match env.run s.world name args with
    | none => .fatal .run s
    | some w => .ok () { s with world := w }

/-- Dereference of a pointer: a nil pointer panics. -/
def deref {W α : Type} : Option α → M W α
  | none => panic
  | some a => pure a

/-- The call `os.MkdirTemp(os.TempDir(), "tmpbld")` of `build`, fatal on error. -/
def mkdirTemp {W : Type} (env : Env W) : M W String := fun s =>
  match env.mkdirTemp s.world with
  | none => .fatal .mkdirTemp s
  | some (d, w) => .ok d { s with world := w }

/-- The call `os.MkdirAll(outDir, 0750)` of `build`; its error is dropped. -/
def mkdirAll {W : Type} (env : Env W) (dir : String) : M W Unit := fun s =>
  .ok () { s with world := env.mkdirAll s.world dir }

/-- Go `build`, after its first line (the log line) has been written. -/
def buildSteps {W : Type} (env : Env W) (app : AppMetadata) (tag : String)
    (rel : Option Release) : M W Unit := do
  let outDir := GoPath.join ["build", app.UniqueId, tag]
  let tmpDir ← mkdirTemp env
  let rel ← deref rel
  run env "docker" ["run", "--rm", "-i", "-v", tmpDir ++ ":/out", rel.Image, "/bin/bash", "-c",
    "git clone \x27" ++ app.Source ++ "\x27 /build && cd /build && git checkout " ++ tag ++
    " && tar --exclude-vcs -zcvf /out/source.tar.gz . && " ++ rel.Command]
  mkdirAll env outDir
  run env "mv" [GoPath.join [tmpDir, "source.tar.gz"], GoPath.join [outDir, app.UniqueId ++ ".tar.gz"]]
  run env "mv" [GoPath.join [tmpDir, "app.xdc"], GoPath.join [outDir, app.UniqueId ++ ".xdc"]]

/-- Go `build`.  The call is recorded in the trace together with the catalog in
memory and on disk at that moment. -/
def build {W : Type} (env : Env W) (app : AppMetadata) (tag : String)
    (rel : Option Release) : M W Unit := do
  let s ← getState
  emit (.build app.UniqueId tag s.repo s.disk)
  buildSteps env app tag rel

/-- The value `*repo.Apps[uid]`: reading a nil map or a missing key gives the
nil pointer, whose dereference panics. -/
def entryOf {W : Type} (uid : String) : M W AppMetadata := do
  let s ← getState
  deref (s.repo.entry uid)

/-- A write through the pointer `repo.Apps[uid]`. -/
def setEntry {W : Type} (uid : String) (a : AppMetadata) : M W Unit := fun s =>
  .ok () { s with repo := ⟨some ((s.repo.Apps.getD []).set uid (some a))⟩ }

/-- Lines 128 to 146 of `walk`: create the catalog entry of the manifest, or
overwrite its descriptive fields. -/
def merge {W : Type} (app : AppMetadata) : M W Unit := do
  let s ← getState
  match s.repo.slot app.UniqueId with
  | none =>
    match s.repo.Apps with
    | none => panic
    | some apps =>
      fun s => .ok () { s with repo := ⟨some (apps.set app.UniqueId (some
        { Name := app.Name
          UniqueId := app.UniqueId
          ShortDescription := app.ShortDescription
          Description := app.Description
          Source := app.Source
          Banner := GoPath.join [app.UniqueId, app.Banner]
          SupportedReleases := app.SupportedReleases
          Releases := none }))⟩ }
  | some p =>
    let a ← deref p
    setEntry app.UniqueId
      { a with
        Name := app.Name
        UniqueId := app.UniqueId
        ShortDescription := app.ShortDescription
        Description := app.Description
        Source := app.Source
        Banner := GoPath.join [app.UniqueId, app.Banner]
        SupportedReleases := app.SupportedReleases }

/-- The assignment `repo.Apps[uid].Releases[tag] = rel`: panics on a nil entry
and on a nil `Releases` map. -/
def insertRecord {W : Type} (uid tag : String) (rel : Release) : M W Unit := do
  let a ← entryOf uid
  match a.Releases with
  | none => panic
  | some rs => setEntry uid { a with Releases := some (rs.set tag (some rel)) }

/-- Lines 153 to 166 of `walk`: the body of the loop for a tag `i` that has no
build record yet. -/
def buildRelease {W : Type} (env : Env W) (app : AppMetadata) (dirname : String)
    (i : String) : M W Unit := do
  let a ← entryOf app.UniqueId
  if a.Releases.isNone then
    setEntry app.UniqueId { a with Releases := some [] }
  build env app i (GoMap.index app.Releases i)
  let rel ← deref (GoMap.index app.Releases i)
  let tar ← sha512String env
    (GoPath.join ["build", app.UniqueId, i, app.UniqueId ++ ".tar.gz"])
  let xdc ← sha512String env
    (GoPath.join ["build", app.UniqueId, i, app.UniqueId ++ ".xdc"])
  insertRecord app.UniqueId i (releaseRecord app i rel tar xdc)
  run env "cp" [GoPath.join [dirname, app.Banner],
    GoPath.join ["build", app.UniqueId, app.Banner]]
  save env

/-- The loop `for i := range app.Releases` of `walk` (lines 148 to 167), over
the keys still to visit. -/
def releaseLoop {W : Type} (env : Env W) (app : AppMetadata) (dirname : String) :
    List String → M W Unit
  | [] => pure ()
  | i :: rest => do
    let a ← entryOf app.UniqueId
    if ((a.Releases.getD []).get? i).isSome then
      releaseLoop env app dirname rest
    else
      buildRelease env app dirname i
      releaseLoop env app dirname rest

/-- What `os.ReadFile` and `json.Unmarshal` make of a file. -/
inductive FileContent where
  | unreadable
  | malformed
  | manifest (app : AppMetadata)
deriving DecidableEq, Repr

/-- One call of the walk function by `filepath.Walk`: the path, whether the
traversal reports an error for it, and what the file is. -/
structure WalkEntry where
  p : String
  err : Bool
  isDir : Bool
  name : String
  content : FileContent
deriving DecidableEq, Repr

/-- The non-nil errors `walk` returns. -/
inductive WalkError where
  | traversal
  | readFile
  | unmarshal
deriving DecidableEq, Repr

/-- Go `strings.HasSuffix`. -/
def hasSuffix (s suffix : String) : Bool := suffix.data.isSuffixOf s.data

/-- Go `walk`; `none` is the nil error. -/
def walk {W : Type} (env : Env W) (e : WalkEntry) : M W (Option WalkError) :=
  if e.err then pure (some .traversal)
  else if e.isDir then pure none
  else if !hasSuffix e.name ".json" then pure none
  else
    let dirname := GoPath.dir e.p
    match e.content with
    | .unreadable => pure (some .readFile)
    | .malformed => pure (some .unmarshal)
    | .manifest app => do
      merge app
      save env
      releaseLoop env app dirname (GoMap.keys app.Releases)
      pure none

/-- Go `filepath.Walk` over the entries of the tree in traversal order: the
walk stops at the first error the walk function returns and returns it. -/
def filepathWalk {W : Type} (env : Env W) : List WalkEntry → M W (Option WalkError)
  | [] => pure none
  | e :: es => do
    match ← walk env e with
    | some err => pure (some err)
    | none => filepathWalk env es

/-- What `os.ReadFile("build/meta.json")` and `json.Unmarshal(b, &repo)` give
at start-up: no file, an undecodable file, or the catalog decoded into the
variable `repo`. -/
inductive MetaFile where
  | absent
  | malformed
  | parsed (r : RepositoryMetadata)
deriving DecidableEq, Repr

/-- The catalog a meta file holds. -/
def MetaFile.catalog : MetaFile → Option RepositoryMetadata
  | .parsed r => some r
  | _ => none

/-- The state after the two `init` functions: `repo.Apps` is an empty map. -/
def initState {W : Type} (w : W) (file : MetaFile) : State W :=
  { repo := ⟨some []⟩, disk := file.catalog, world := w, trace := [] }

/-- How `main` ended when it returned. -/
inductive Exit where
  | missingDir
  | walked (err : Option WalkError)
deriving DecidableEq, Repr

/-- Go `main`, after `init`.  `appsDir` and `buildDir` tell whether
`os.Stat` finds the two directories. -/
def mainFrom {W : Type} (env : Env W) (appsDir buildDir : Bool) (file : MetaFile)
    (entries : List WalkEntry) : M W Exit :=
  if !appsDir then pure .missingDir
  else if !buildDir then pure .missingDir
  else do
    match file with
    | .absent => pure ()
    | .malformed => fatal .unmarshalMeta
    | .parsed r => fun s => .ok () { s with repo := r }
    let err ← filepathWalk env entries
    pure (.walked err)

/-- A whole run of the program in a world `w`. -/
def main {W : Type} (env : Env W) (appsDir buildDir : Bool) (file : MetaFile)
    (entries : List WalkEntry) (w : W) : Res (State W) Exit :=
  mainFrom env appsDir buildDir file entries (initState w file)


/-! ## Vocabulary of the specification -/

/-- The entry that `walk` stores for a manifest `app` when the catalog held
`old` under its identity (lines 128 to 146): the descriptive fields of the
manifest, the joined banner path, and the `Releases` map of the old entry (a
new entry has none). -/
def mergedEntry (app : AppMetadata) (old : Option AppMetadata) : AppMetadata :=
  { Name := app.Name
    UniqueId := app.UniqueId
    ShortDescription := app.ShortDescription
    Description := app.Description
    Source := app.Source
    Banner := GoPath.join [app.UniqueId, app.Banner]
    SupportedReleases := app.SupportedReleases
    Releases := old.bind AppMetadata.Releases }

/-- The catalog after the metadata merge of a manifest. -/
def mergeRepo (app : AppMetadata) (r : RepositoryMetadata) : RepositoryMetadata :=
  r.withEntry app.UniqueId (mergedEntry app (r.entry app.UniqueId))

/-- The entry is a manifest file that `walk` decodes into `app`: no traversal
error, not a directory, a name ending in `.json`, and a parseable content. -/
def WalkEntry.isManifest (e : WalkEntry) (app : AppMetadata) : Prop :=
  e.err = false ∧ e.isDir = false ∧ hasSuffix e.name ".json" = true ∧ e.content = .manifest app

instance (e : WalkEntry) (app : AppMetadata) : Decidable (e.isManifest app) := by
  unfold WalkEntry.isManifest; infer_instance

/-- The state `t` comes from `s` by commands only. -/
def Quiet {W : Type} (s t : State W) : Prop :=
  t.repo = s.repo ∧ t.disk = s.disk ∧ ∃ evs, t.trace = s.trace ++ evs ∧ buildCalls evs = []

/-- A quiet computation: from every state it either returns or dies by a
`log.Fatalln` other than the one of `save`, in a state reached by commands
only. -/
def IsQuiet {W α : Type} (x : M W α) : Prop :=
  ∀ s, (∃ a t, x s = .ok a t ∧ Quiet s t) ∨
       (∃ c t, x s = .fatal c t ∧ c ≠ Cause.writeFile ∧ Quiet s t)

/-- One iteration of the release loop for the unbuilt tag `i` returned in the
state `t`, having started in `s` with the entry `a` of the manifest. -/
def BodyOk {W : Type} (app : AppMetadata) (i : String) (s : State W) (a : AppMetadata)
    (t : State W) : Prop :=
  ∃ rel tar xdc evs, GoMap.index app.Releases i = some rel ∧
    t.repo = (s.repo.initReleases app.UniqueId a).addRecord app.UniqueId a i
      (releaseRecord app i rel tar xdc) ∧
    t.disk = some t.repo ∧
    t.trace = s.trace ++
      Event.build app.UniqueId i (s.repo.initReleases app.UniqueId a) s.disk :: evs ∧
    buildCalls evs = []

/-- One iteration of the release loop for the unbuilt tag `i` ended the process
with the result `r`, having started in `s` with the entry `a` of the manifest. -/
def BodyDead {W : Type} (app : AppMetadata) (i : String) (s : State W) (a : AppMetadata)
    (r : Res (State W) Unit) : Prop :=
  r.isOk = false ∧ r.state.disk = s.disk ∧
  (∃ evs, r.state.trace = s.trace ++
      Event.build app.UniqueId i (s.repo.initReleases app.UniqueId a) s.disk :: evs ∧
    buildCalls evs = []) ∧
  (r.state.repo = s.repo.initReleases app.UniqueId a ∨
    ∃ rel tar xdc, GoMap.index app.Releases i = some rel ∧
      r.state.repo = (s.repo.initReleases app.UniqueId a).addRecord app.UniqueId a i
        (releaseRecord app i rel tar xdc)) ∧
  (r.isPanic = true → GoMap.index app.Releases i = none)

/-- The descriptive part of an entry: everything but its `Releases` map. -/
def AppMetadata.desc (a : AppMetadata) : AppMetadata := { a with Releases := none }

/-- The catalog `B` comes from `A` by adding build records under `uid`: the
other slots are the same, and an entry of `A` under `uid` is still there with
the same descriptive fields and all the records it had. -/
def GrowsAt (uid : String) (A B : RepositoryMetadata) : Prop :=
  (∀ x, uid ≠ x → B.slot x = A.slot x) ∧
  ∀ a, A.entry uid = some a → ∃ b, B.entry uid = some b ∧ b.desc = a.desc ∧
    ∀ t x, (a.Releases.getD []).get? t = some x → (b.Releases.getD []).get? t = some x

/-- The same outcome with another return value. -/
def Res.as {σ α β : Type} (b : β) : Res σ α → Res σ β
  | .ok _ s => .ok b s
  | .fatal c s => .fatal c s
  | .panic s => .panic s

/-- The state in which the release loop of `walk` starts: the manifest has been
merged and the catalog saved, leaving the world `w`. -/
def afterMerge {W : Type} (app : AppMetadata) (s : State W) (w : W) : State W :=
  { s with repo := mergeRepo app s.repo, disk := some (mergeRepo app s.repo), world := w }

/-- An entry with a nil `Releases` map read as one with an empty map. -/
def normReleases (a : AppMetadata) : AppMetadata :=
  { a with Releases := some (a.Releases.getD []) }

/-- Two catalogs are the same mapping from identities to entries, an absent
release mapping counted as empty. -/
def sameCatalog (A B : RepositoryMetadata) : Prop :=
  ∀ uid, (A.slot uid).map (Option.map normReleases) = (B.slot uid).map (Option.map normReleases)

/-- What holds of a `build` call in the trace: the catalog on disk exists, is
the catalog in memory, and has no build record for the release being built. -/
def Event.synced : Event → Prop
  | .build uid tag mem disk =>
    ∃ D, disk = some D ∧ sameCatalog D mem ∧ D.record uid tag = none ∧
      ∃ a rs, mem.entry uid = some a ∧ a.Releases = some rs
  | .run _ _ => True

/-- The manifest that `walk` decodes from an entry, if it gets that far. -/
def WalkEntry.manifest? (e : WalkEntry) : Option AppMetadata :=
  if e.err then none
  else if e.isDir then none
  else if !hasSuffix e.name ".json" then none
  else
    match e.content with
    | .manifest app => some app
    | _ => none

/-- The error that `walk` returns for an entry before it touches the catalog:
the traversal error, or the failure to read or decode the file. -/
def WalkEntry.error? (e : WalkEntry) : Option WalkError :=
  if e.err then some .traversal
  else if e.isDir then none
  else if !hasSuffix e.name ".json" then none
  else
    match e.content with
    | .unreadable => some .readFile
    | .malformed => some .unmarshal
    | .manifest _ => none

/-- The manifests that a walk over the entries processes, in order: those
before the first entry for which `walk` returns an error. -/
def walked : List WalkEntry → List AppMetadata
  | [] => []
  | e :: es =>
    match e.manifest? with
    | some app => app :: walked es
    | none => if e.error?.isSome then [] else walked es

/-- The error that stops a walk over the entries, if there is one. -/
def walkError : List WalkEntry → Option WalkError
  | [] => none
  | e :: es =>
    match e.manifest? with
    | some _ => walkError es
    | none => if e.error?.isSome then e.error? else walkError es

/-- The last manifest of a list that has the identity `uid`. -/
def lastFor (uid : String) : List AppMetadata → Option AppMetadata
  | [] => none
  | m :: ms =>
    match lastFor uid ms with
    | some m1 => some m1
    | none => if m.UniqueId = uid then some m else none

/-- The catalog has an entry for the manifest and a build record for each of
its release tags. -/
def Ready (m : AppMetadata) (r : RepositoryMetadata) : Prop :=
  (∃ b, r.entry m.UniqueId = some b) ∧
  ∀ k ∈ GoMap.keys m.Releases, r.record m.UniqueId k ≠ none

/-- Two catalogs are equal as mappings from identities to entries: the same
identities, and under each the same entry, field by field and build record by
build record. -/
def sameMapping (A B : RepositoryMetadata) : Prop :=
  A.Apps.isSome = B.Apps.isSome ∧ ∀ uid, A.slot uid = B.slot uid

/-- The same outcome with the return value mapped. -/
def Res.map {σ α β : Type} (f : α → β) : Res σ α → Res σ β
  | .ok a s => .ok (f a) s
  | .fatal c s => .fatal c s
  | .panic s => .panic s

/-- The state in which `main` starts the walk: the catalog of the meta file, or
the empty catalog of `init` when there is no file. -/
def loadState {W : Type} (w : W) (file : MetaFile) : State W :=
  { initState w file with repo := file.catalog.getD ⟨some []⟩ }

/-- The entry is a manifest file whose content does not decode: `walk` reads
it and `json.Unmarshal` returns an error. -/
def WalkEntry.isMalformed (e : WalkEntry) : Prop :=
  e.err = false ∧ e.isDir = false ∧ hasSuffix e.name ".json" = true ∧ e.content = .malformed

instance (e : WalkEntry) : Decidable e.isMalformed := by
  unfold WalkEntry.isMalformed; infer_instance

/-- The outcome of a walk that, had it come to its end without error, is
stopped by the error `err`. -/
def Res.stoppedBy {σ : Type} (err : WalkError) :
    Res σ (Option WalkError) → Res σ (Option WalkError)
  | .ok none t => .ok (some err) t
  | r => r

/-- The outcome of a run whose walk, had it come to its end without error, is
stopped by the error `err`, which `main` logs before it returns. -/
def Res.exitStoppedBy {σ : Type} (err : WalkError) : Res σ Exit → Res σ Exit
  | .ok (.walked none) t => .ok (.walked (some err)) t
  | r => r

/-! ## A small tree, for concrete runs -/

/-- A world in which every operation succeeds; it counts the operations. -/
def okEnv : Env Nat where
  writeFile w _ _ := some (w + 1)
  mkdirTemp w := some ("/tmp/tmpbld" ++ toString w, w + 1)
  mkdirAll w _ := w + 1
  run w _ _ := some (w + 1)
  sha512 _ file := some ("sha512 of " ++ file)

/-- A world in which the container runtime is not available: every `docker`
command fails. -/
def noDockerEnv : Env Nat where
  writeFile w _ _ := some (w + 1)
  mkdirTemp w := some ("/tmp/tmpbld" ++ toString w, w + 1)
  mkdirAll w _ := w + 1
  run w name _ := if name = "docker" then none else some (w + 1)
  sha512 _ file := some ("sha512 of " ++ file)

/-- A release spec as a manifest gives it: image and command only. -/
def specOf (image command : String) : Release :=
  { Image := image, Command := command, SourceTarball := "", WebXDCDownload := "",
    XdcSha512sum := "", TarSha512sum := "" }

/-- The manifest of `app1`, declaring the release `v1.0`. -/
def app1 : AppMetadata :=
  { Name := "App One", UniqueId := "app1", ShortDescription := "first", Description := "old text",
    Source := "https://example.org/app1.git", Banner := "banner.png",
    SupportedReleases := some ["v1.0"],
    Releases := some [("v1.0", some (specOf "debian:12" "make xdc"))] }

/-- A later manifest of `app1`: the description has changed, `v1.0` is declared
with another image, and `v2` is new. -/
def app1Later : AppMetadata :=
  { Name := "App One", UniqueId := "app1", ShortDescription := "first", Description := "new text",
    Source := "https://example.org/app1.git", Banner := "banner.png",
    SupportedReleases := some ["v1.0", "v2"],
    Releases := some [("v1.0", some (specOf "debian:13" "make xdc")),
      ("v2", some (specOf "debian:13" "make xdc"))] }

/-- A manifest whose banner is declared as `./banner.png`. -/
def app1Dot : AppMetadata := { app1 with Banner := "./banner.png" }

/-- The manifest file of an application, found at `p`. -/
def manifestFile (p name : String) (app : AppMetadata) : WalkEntry :=
  { p := p, err := false, isDir := false, name := name, content := .manifest app }

/-- A manifest file that does not decode. -/
def brokenFile : WalkEntry :=
  { p := "apps/broken/app.json", err := false, isDir := false, name := "app.json",
    content := .malformed }

/-- The state of a first run, before the walk: no meta file. -/
def freshState : State Nat := loadState 0 .absent

/-- The manifest file of `app1`. -/
def app1File : WalkEntry := manifestFile "apps/app1/app.json" "app.json" app1

/-- The manifest file of `app1` after it has been edited. -/
def app1LaterFile : WalkEntry := manifestFile "apps/app1/app.json" "app.json" app1Later

/-- The state after a first run over the manifest of `app1` has returned. -/
def builtState : State Nat := (walk okEnv app1File freshState).state

/-- The catalog saved after the merge of the manifest of `app1` into the empty
catalog. -/
def mergedCatalog : RepositoryMetadata := mergeRepo app1 freshState.repo

/-- The build record of release `v1.0` of `app1`. -/
def record1 : Release :=
  { Image := "debian:12", Command := "make xdc",
    SourceTarball := "app1/v1.0/app1.tar.gz", WebXDCDownload := "app1/v1.0/app1.xdc",
    XdcSha512sum := "sha512 of build/app1/v1.0/app1.xdc",
    TarSha512sum := "sha512 of build/app1/v1.0/app1.tar.gz" }

/-! ## Basic facts about maps and the catalog -/

theorem GoMap.get?_set {V : Type} (m : GoMap V) (k x : String) (v : V) :
    (GoMap.set m k v).get? x = if k = x then some v else GoMap.get? m x := by
  induction m with
  | nil => simp [GoMap.set, GoMap.get?]
  | cons hd tl ih =>
    obtain ⟨k1, v1⟩ := hd
    by_cases h : k1 = k
    · subst h
      by_cases hx : k1 = x <;> simp [GoMap.set, GoMap.get?, hx]
    · by_cases hx : k1 = x
      · subst hx
        have hk : ¬ k = k1 := fun e => h e.symm
        simp [GoMap.set, GoMap.get?, h, hk]
      · simp [GoMap.set, GoMap.get?, h, hx, ih]

theorem RepositoryMetadata.slot_withEntry (r : RepositoryMetadata) (uid x : String)
    (a : AppMetadata) :
    (r.withEntry uid a).slot x = if uid = x then some (some a) else r.slot x := by
  unfold RepositoryMetadata.withEntry RepositoryMetadata.slot
  simp only [Option.getD_some, GoMap.get?_set]

theorem RepositoryMetadata.entry_withEntry (r : RepositoryMetadata) (uid x : String)
    (a : AppMetadata) :
    (r.withEntry uid a).entry x = if uid = x then some a else r.entry x := by
  unfold RepositoryMetadata.withEntry RepositoryMetadata.entry RepositoryMetadata.slot
  simp only [Option.getD_some, GoMap.get?_set]
  split <;> simp

/-! ## Evaluation lemmas for the state monad -/

section Eval
variable {W α β : Type}

@[simp] theorem pure_apply (a : α) (s : State W) : (pure a : M W α) s = .ok a s := rfl

@[simp] theorem bind_apply (x : M W α) (f : α → M W β) (s : State W) :
    (x >>= f) s =
      match x s with
      | .ok a s1 => f a s1
      | .fatal c s1 => .fatal c s1
      | .panic s1 => .panic s1 := rfl

@[simp] theorem getState_apply (s : State W) : (getState : M W (State W)) s = .ok s s := rfl

@[simp] theorem emit_apply (e : Event) (s : State W) :
    (emit e : M W Unit) s = .ok () { s with trace := s.trace ++ [e] } := rfl

@[simp] theorem fatal_apply (c : Cause) (s : State W) : (fatal c : M W α) s = .fatal c s := rfl

@[simp] theorem panic_apply (s : State W) : (panic : M W α) s = .panic s := rfl

@[simp] theorem deref_some (a : α) (s : State W) : (deref (some a) : M W α) s = .ok a s := rfl

@[simp] theorem deref_none (s : State W) : (deref (none : Option α) : M W α) s = .panic s := rfl

@[simp] theorem setEntry_apply (uid : String) (a : AppMetadata) (s : State W) :
    (setEntry uid a : M W Unit) s = .ok () { s with repo := s.repo.withEntry uid a } := rfl

@[simp] theorem Res.state_ok (a : α) (s : State W) : (Res.ok a s : Res (State W) α).state = s := rfl
@[simp] theorem Res.state_fatal (c : Cause) (s : State W) :
    (Res.fatal c s : Res (State W) α).state = s := rfl
@[simp] theorem Res.state_panic (s : State W) : (Res.panic s : Res (State W) α).state = s := rfl

end Eval

theorem Res.eq_ok {σ α : Type} {r : Res σ α} {a : α} (h : r.value? = some a) :
    r = .ok a r.state := by
  cases r with
  | ok b s => simp only [Res.value?, Option.some.injEq] at h; rw [h]; rfl
  | fatal c s => cases h
  | panic s => cases h

theorem Res.eq_fatal {σ α : Type} {r : Res σ α} {c : Cause} (h : r.cause = some c) :
    r = .fatal c r.state := by
  cases r with
  | ok b s => cases h
  | fatal c1 s => simp only [Res.cause, Option.some.injEq] at h; rw [h]; rfl
  | panic s => cases h

theorem buildCalls_append (xs ys : List Event) :
    buildCalls (xs ++ ys) = buildCalls xs ++ buildCalls ys := by
  induction xs with
  | nil => rfl
  | cons e es ih => cases e <;> simp [buildCalls, ih]

/-! ## `run`, `build` -/

section Steps
variable {W : Type}

theorem entryOf_apply (uid : String) (s : State W) :
    (entryOf uid : M W AppMetadata) s =
      match s.repo.entry uid with
      | some a => .ok a s
      | none => .panic s := by
  simp only [entryOf, bind_apply, getState_apply]
  cases s.repo.entry uid <;> rfl

end Steps
/-! ## Quiet computations

A computation is quiet when it leaves the catalog alone, in memory and on disk,
calls `build` for nothing, does not panic and does not die in `save`. -/

section Quiet
variable {W : Type}

theorem Quiet.quiet_refl (s : State W) : Quiet s s :=
  ⟨rfl, rfl, [], by simp, rfl⟩

theorem Quiet.quiet_trans {s t u : State W} (h1 : Quiet s t) (h2 : Quiet t u) : Quiet s u := by
  obtain ⟨r1, d1, e1, t1, b1⟩ := h1
  obtain ⟨r2, d2, e2, t2, b2⟩ := h2
  refine ⟨r2.trans r1, d2.trans d1, e1 ++ e2, ?_, ?_⟩
  · rw [t2, t1, List.append_assoc]
  · rw [buildCalls_append, b1, b2]; rfl

theorem IsQuiet.pure {α : Type} (a : α) : IsQuiet (pure a : M W α) :=
  fun s => Or.inl ⟨a, s, rfl, Quiet.quiet_refl s⟩

theorem IsQuiet.bind {α β : Type} {x : M W α} {f : α → M W β} (hx : IsQuiet x)
    (hf : ∀ a, IsQuiet (f a)) : IsQuiet (x >>= f) := by
  intro s
  rcases hx s with ⟨a, t, h, hq⟩ | ⟨c, t, h, hc, hq⟩
  · rcases hf a t with ⟨b, u, h2, hq2⟩ | ⟨c, u, h2, hc, hq2⟩
    · exact Or.inl ⟨b, u, by simp [h, h2], hq.quiet_trans hq2⟩
    · exact Or.inr ⟨c, u, by simp [h, h2], hc, hq.quiet_trans hq2⟩
  · exact Or.inr ⟨c, t, by simp [h], hc, hq⟩

theorem IsQuiet.quiet_deref {α : Type} (a : α) : IsQuiet (deref (some a) : M W α) :=
  IsQuiet.pure a

theorem IsQuiet.run (env : Env W) (name : String) (args : List String) :
    IsQuiet (run env name args) := by
  intro s
  simp only [Marketplace.run, bind_apply, emit_apply]
  cases env.run s.world name args with
  | none =>
    exact Or.inr ⟨_, _, rfl, by decide, rfl, rfl, [Event.run name args], rfl, rfl⟩
  | some w =>
    exact Or.inl ⟨_, _, rfl, rfl, rfl, [Event.run name args], rfl, rfl⟩

theorem IsQuiet.sha512String (env : Env W) (file : String) :
    IsQuiet (sha512String env file) := by
  intro s
  simp only [Marketplace.sha512String]
  cases env.sha512 s.world file with
  | none => exact Or.inr ⟨_, _, rfl, by decide, Quiet.quiet_refl s⟩
  | some h => exact Or.inl ⟨_, _, rfl, Quiet.quiet_refl s⟩

theorem IsQuiet.mkdirTemp (env : Env W) : IsQuiet (mkdirTemp env) := by
  intro s
  simp only [Marketplace.mkdirTemp]
  cases env.mkdirTemp s.world with
  | none => exact Or.inr ⟨_, _, rfl, by decide, Quiet.quiet_refl s⟩
  | some dw => exact Or.inl ⟨_, _, rfl, rfl, rfl, [], by simp, rfl⟩

theorem IsQuiet.mkdirAll (env : Env W) (dir : String) : IsQuiet (mkdirAll env dir) :=
  fun s => Or.inl ⟨_, _, rfl, rfl, rfl, [], by simp, rfl⟩

theorem IsQuiet.buildSteps (env : Env W) (app : AppMetadata) (tag : String) (rel : Release) :
    IsQuiet (buildSteps env app tag (some rel)) := by
  unfold Marketplace.buildSteps
  refine IsQuiet.bind (IsQuiet.mkdirTemp env) fun d => ?_
  refine IsQuiet.bind (IsQuiet.quiet_deref rel) fun r => ?_
  refine IsQuiet.bind (IsQuiet.run env _ _) fun _ => ?_
  refine IsQuiet.bind (IsQuiet.mkdirAll env _) fun _ => ?_
  exact IsQuiet.bind (IsQuiet.run env _ _) fun _ => IsQuiet.run env _ _

/-- With a nil release spec `build` cannot return: it dies making the temporary
directory or panics on `rel.Image`, having run no command. -/
theorem buildSteps_none (env : Env W) (app : AppMetadata) (tag : String) (s : State W) :
    (∃ t, buildSteps env app tag none s = .fatal Cause.mkdirTemp t ∧ Quiet s t) ∨
    (∃ t, buildSteps env app tag none s = .panic t ∧ Quiet s t) := by
  simp only [Marketplace.buildSteps, bind_apply, Marketplace.mkdirTemp]
  cases env.mkdirTemp s.world with
  | none => exact Or.inl ⟨_, rfl, Quiet.quiet_refl s⟩
  | some dw => exact Or.inr ⟨_, rfl, rfl, rfl, [], by simp, rfl⟩

end Quiet
/-! ## One iteration of the release loop -/

section Body
variable {W : Type}

theorem insertRecord_apply (uid tag : String) (rel : Release) (s : State W) (a : AppMetadata)
    (rs : GoMap (Option Release)) (ha : s.repo.entry uid = some a) (hr : a.Releases = some rs) :
    (insertRecord uid tag rel : M W Unit) s =
      .ok () { s with repo := s.repo.addRecord uid a tag rel } := by
  simp only [insertRecord, bind_apply, entryOf_apply, ha, hr, setEntry_apply,
    RepositoryMetadata.addRecord, Option.getD_some]

theorem entry_initReleases (r : RepositoryMetadata) (uid : String) (a : AppMetadata)
    (ha : r.entry uid = some a) :
    (r.initReleases uid a).entry uid = some { a with Releases := some (a.Releases.getD []) } := by
  unfold RepositoryMetadata.initReleases
  cases hr : a.Releases with
  | none => simp [RepositoryMetadata.entry_withEntry]
  | some rs =>
    simp only [Option.isNone_some, Bool.false_eq_true, if_false, Option.getD_some, ha]
    rw [← hr]

/-- The three ways one iteration for an unbuilt tag can end, from a state whose
catalog has the entry `a` under the identity of the manifest. -/
theorem buildRelease_spec (env : Env W) (app : AppMetadata) (dirname i : String)
    (s : State W) (a : AppMetadata) (ha : s.repo.entry app.UniqueId = some a) :
    ∃ evs, buildCalls evs = [] ∧
      (buildRelease env app dirname i s).state.trace =
        s.trace ++ Event.build app.UniqueId i (s.repo.initReleases app.UniqueId a) s.disk :: evs ∧
      ((∃ t rel tar xdc, buildRelease env app dirname i s = .ok () t ∧
          GoMap.index app.Releases i = some rel ∧
          t.repo = (s.repo.initReleases app.UniqueId a).addRecord app.UniqueId a i
            (releaseRecord app i rel tar xdc) ∧
          t.disk = some t.repo) ∨
       (∃ c t, buildRelease env app dirname i s = .fatal c t ∧ t.disk = s.disk ∧
          (t.repo = s.repo.initReleases app.UniqueId a ∨
           ∃ rel tar xdc, GoMap.index app.Releases i = some rel ∧
             t.repo = (s.repo.initReleases app.UniqueId a).addRecord app.UniqueId a i
               (releaseRecord app i rel tar xdc))) ∨
       (∃ t, buildRelease env app dirname i s = .panic t ∧ GoMap.index app.Releases i = none ∧
          t.disk = s.disk ∧ t.repo = s.repo.initReleases app.UniqueId a)) := by
  -- the state in which `build` is entered
  have h0 : buildRelease env app dirname i s =
      ((do
        buildSteps env app i (GoMap.index app.Releases i)
        let rel ← deref (GoMap.index app.Releases i)
        let tar ← sha512String env
          (GoPath.join ["build", app.UniqueId, i, app.UniqueId ++ ".tar.gz"])
        let xdc ← sha512String env
          (GoPath.join ["build", app.UniqueId, i, app.UniqueId ++ ".xdc"])
        insertRecord app.UniqueId i (releaseRecord app i rel tar xdc)
        run env "cp" [GoPath.join [dirname, app.Banner],
          GoPath.join ["build", app.UniqueId, app.Banner]]
        save env) : M W Unit)
        { s with
          repo := s.repo.initReleases app.UniqueId a
          trace := s.trace ++
            [Event.build app.UniqueId i (s.repo.initReleases app.UniqueId a) s.disk] } := by
    simp only [buildRelease, bind_apply, entryOf_apply, ha, build, getState_apply, emit_apply,
      RepositoryMetadata.initReleases]
    cases a.Releases <;> rfl
  rw [h0]
  generalize hs0 : ({ s with
      repo := s.repo.initReleases app.UniqueId a
      trace := s.trace ++
        [Event.build app.UniqueId i (s.repo.initReleases app.UniqueId a) s.disk] } : State W) = s0
  have hs0r : s0.repo = s.repo.initReleases app.UniqueId a := by rw [← hs0]
  have hs0d : s0.disk = s.disk := by rw [← hs0]
  have hs0t : s0.trace = s.trace ++
      [Event.build app.UniqueId i (s.repo.initReleases app.UniqueId a) s.disk] := by rw [← hs0]
  have key : ∀ (t : State W) (evs : List Event), t.trace = s0.trace ++ evs →
      t.trace = s.trace ++
        Event.build app.UniqueId i (s.repo.initReleases app.UniqueId a) s.disk :: evs := by
    intro t evs h
    rw [h, hs0t, List.append_assoc]; rfl
  simp only [bind_apply]
  cases hidx : GoMap.index app.Releases i with
  | none =>
    rcases buildSteps_none env app i s0 with ⟨t, h, hq⟩ | ⟨t, h, hq⟩
    · obtain ⟨hr, hd, evs, ht, hb⟩ := hq
      refine ⟨evs, hb, ?_,
        Or.inr (Or.inl ⟨Cause.mkdirTemp, t, ?_, hd.trans hs0d, Or.inl (hr.trans hs0r)⟩)⟩
      · simp only [h, Res.state_fatal]; exact key t evs ht
      · simp only [h]
    · obtain ⟨hr, hd, evs, ht, hb⟩ := hq
      refine ⟨evs, hb, ?_, Or.inr (Or.inr ⟨t, ?_, rfl, hd.trans hs0d, hr.trans hs0r⟩)⟩
      · simp only [h, Res.state_panic]; exact key t evs ht
      · simp only [h]
  | some rel =>
    rcases IsQuiet.buildSteps env app i rel s0 with ⟨u, t1, h1, q1⟩ | ⟨c, t, h, hc, hq⟩
    swap
    · obtain ⟨hr, hd, evs, ht, hb⟩ := hq
      refine ⟨evs, hb, ?_, Or.inr (Or.inl ⟨c, t, ?_, hd.trans hs0d, Or.inl (hr.trans hs0r)⟩)⟩
      · simp only [h, Res.state_fatal]; exact key t evs ht
      · simp only [h]
    simp only [h1, deref_some]
    rcases IsQuiet.sha512String env
      (GoPath.join ["build", app.UniqueId, i, app.UniqueId ++ ".tar.gz"]) t1 with
      ⟨tar, t2, h2, q2⟩ | ⟨c, t, h, hc, hq⟩
    swap
    · obtain ⟨hr, hd, evs, ht, hb⟩ := q1.quiet_trans hq
      refine ⟨evs, hb, ?_, Or.inr (Or.inl ⟨c, t, ?_, hd.trans hs0d, Or.inl (hr.trans hs0r)⟩)⟩
      · simp only [h, Res.state_fatal]; exact key t evs ht
      · simp only [h]
    simp only [h2]
    rcases IsQuiet.sha512String env
      (GoPath.join ["build", app.UniqueId, i, app.UniqueId ++ ".xdc"]) t2 with
      ⟨xdc, t3, h3, q3⟩ | ⟨c, t, h, hc, hq⟩
    swap
    · obtain ⟨hr, hd, evs, ht, hb⟩ := (q1.quiet_trans q2).quiet_trans hq
      refine ⟨evs, hb, ?_, Or.inr (Or.inl ⟨c, t, ?_, hd.trans hs0d, Or.inl (hr.trans hs0r)⟩)⟩
      · simp only [h, Res.state_fatal]; exact key t evs ht
      · simp only [h]
    simp only [h3]
    have q13 : Quiet s0 t3 := (q1.quiet_trans q2).quiet_trans q3
    have he3 : t3.repo.entry app.UniqueId =
        some { a with Releases := some (a.Releases.getD []) } := by
      rw [q13.1, hs0r]; exact entry_initReleases s.repo app.UniqueId a ha
    rw [insertRecord_apply app.UniqueId i _ t3 _ (a.Releases.getD []) he3 rfl]
    simp only []
    generalize hs4 : ({ t3 with repo := (t3.repo.addRecord app.UniqueId
        ({ a with Releases := some (a.Releases.getD []) }) i
        (releaseRecord app i rel tar xdc)) } : State W) = t4
    have h4r : t4.repo = (s.repo.initReleases app.UniqueId a).addRecord app.UniqueId a i
        (releaseRecord app i rel tar xdc) := by
      rw [← hs4]; simp only [RepositoryMetadata.addRecord, q13.1, hs0r, Option.getD_some]
    have q4 : t4.disk = s.disk ∧ ∃ evs, t4.trace = s0.trace ++ evs ∧ buildCalls evs = [] := by
      rw [← hs4]; exact ⟨q13.2.1.trans hs0d, q13.2.2⟩
    rcases IsQuiet.run env "cp" [GoPath.join [dirname, app.Banner],
      GoPath.join ["build", app.UniqueId, app.Banner]] t4 with ⟨u5, t5, h5, q5⟩ | ⟨c, t, h, hc, hq⟩
    swap
    · obtain ⟨hd4, e4, ht4, hb4⟩ := q4
      obtain ⟨hr, hd, evs, ht, hb⟩ := hq
      refine ⟨e4 ++ evs, by rw [buildCalls_append, hb4, hb]; rfl, ?_,
        Or.inr (Or.inl ⟨c, t, ?_, hd.trans hd4, Or.inr ⟨rel, tar, xdc, rfl, hr.trans h4r⟩⟩)⟩
      · simp only [h, Res.state_fatal]
        exact key t _ (by rw [ht, ht4, List.append_assoc])
      · simp only [h]
    simp only [h5]
    obtain ⟨hd4, e4, ht4, hb4⟩ := q4
    obtain ⟨hr5, hd5, e5, ht5, hb5⟩ := q5
    have ht5s : t5.trace = s0.trace ++ (e4 ++ e5) := by rw [ht5, ht4, List.append_assoc]
    refine ⟨e4 ++ e5, by rw [buildCalls_append, hb4, hb5]; rfl, ?_, ?_⟩
    · simp only [save]
      cases env.writeFile t5.world "build/meta.json" t5.repo <;>
        simpa using key t5 _ ht5s
    · simp only [save]
      cases env.writeFile t5.world "build/meta.json" t5.repo with
      | none =>
        exact Or.inr (Or.inl ⟨_, t5, rfl, hd5.trans hd4,
          Or.inr ⟨rel, tar, xdc, rfl, hr5.trans h4r⟩⟩)
      | some w =>
        exact Or.inl ⟨_, rel, tar, xdc, rfl, rfl, hr5.trans h4r, rfl⟩

end Body
/-! ## The release loop -/

section Loop
variable {W : Type}

theorem record_of_entry (r : RepositoryMetadata) (uid tag : String) (a : AppMetadata)
    (ha : r.entry uid = some a) : r.record uid tag = (a.Releases.getD []).get? tag := by
  simp only [RepositoryMetadata.record, ha]

theorem entry_addRecord (r : RepositoryMetadata) (uid : String) (a : AppMetadata)
    (tag : String) (rel : Release) (x : String) :
    (r.addRecord uid a tag rel).entry x =
      if uid = x then
        some { a with Releases := some (GoMap.set (a.Releases.getD []) tag (some rel)) }
      else r.entry x := by
  simp only [RepositoryMetadata.addRecord, RepositoryMetadata.entry_withEntry]

theorem slot_initReleases_ne (r : RepositoryMetadata) (uid : String) (a : AppMetadata)
    (x : String) (hx : uid ≠ x) : (r.initReleases uid a).slot x = r.slot x := by
  unfold RepositoryMetadata.initReleases
  split
  · simp [RepositoryMetadata.slot_withEntry, hx]
  · rfl

theorem slot_addRecord_ne (r : RepositoryMetadata) (uid : String) (a : AppMetadata)
    (tag : String) (rel : Release) (x : String) (hx : uid ≠ x) :
    (r.addRecord uid a tag rel).slot x = r.slot x := by
  simp [RepositoryMetadata.addRecord, RepositoryMetadata.slot_withEntry, hx]

/-- Case analysis of the release loop, for a catalog that has the entry of the
manifest: the loop is over, or the next tag is skipped, or its build ends the
process, or its build returns and the loop goes on. -/
theorem releaseLoop_cases (env : Env W) (app : AppMetadata) (dirname : String)
    (P : List String → State W → Res (State W) Unit → Prop)
    (hnil : ∀ s, P [] s (.ok () s))
    (hskip : ∀ i rest s a, s.repo.entry app.UniqueId = some a →
      ((a.Releases.getD []).get? i).isSome = true →
      P rest s (releaseLoop env app dirname rest s) →
      P (i :: rest) s (releaseLoop env app dirname rest s))
    (hdead : ∀ i rest s a r, s.repo.entry app.UniqueId = some a →
      (a.Releases.getD []).get? i = none → BodyDead app i s a r → P (i :: rest) s r)
    (hstep : ∀ i rest s a t, s.repo.entry app.UniqueId = some a →
      (a.Releases.getD []).get? i = none → BodyOk app i s a t →
      P rest t (releaseLoop env app dirname rest t) →
      P (i :: rest) s (releaseLoop env app dirname rest t)) :
    ∀ ks s a, s.repo.entry app.UniqueId = some a → P ks s (releaseLoop env app dirname ks s) := by
  intro ks
  induction ks with
  | nil => intro s a _; exact hnil s
  | cons i rest ih =>
    intro s a ha
    cases hrec : (a.Releases.getD []).get? i with
    | some x =>
      have h : releaseLoop env app dirname (i :: rest) s = releaseLoop env app dirname rest s := by
        simp only [releaseLoop, bind_apply, entryOf_apply, ha, hrec, Option.isSome_some, if_true]
      rw [h]
      exact hskip i rest s a ha (by rw [hrec]; rfl) (ih s a ha)
    | none =>
      have h : ∀ r, buildRelease env app dirname i s = r →
          releaseLoop env app dirname (i :: rest) s =
            (match r with
              | .ok _ t => releaseLoop env app dirname rest t
              | .fatal c t => .fatal c t
              | .panic t => .panic t) := by
        intro r hr
        simp only [releaseLoop, bind_apply, entryOf_apply, ha, hrec, Option.isSome_none,
          Bool.false_eq_true, if_false, hr]
        cases r <;> rfl
      obtain ⟨evs, hb, htr, hcase⟩ := buildRelease_spec env app dirname i s a ha
      rcases hcase with ⟨t, rel, tar, xdc, hr, hidx, hrepo, hdisk⟩ | ⟨c, t, hr, hdisk, hrepo⟩ |
        ⟨t, hr, hidx, hdisk, hrepo⟩
      · rw [h _ hr]
        rw [hr] at htr
        have hent : t.repo.entry app.UniqueId =
            some { a with Releases := some (GoMap.set (a.Releases.getD []) i
              (some (releaseRecord app i rel tar xdc))) } := by
          rw [hrepo, entry_addRecord]; simp
        exact hstep i rest s a t ha hrec ⟨rel, tar, xdc, evs, hidx, hrepo, hdisk, htr, hb⟩
          (ih t _ hent)
      · rw [h _ hr]
        rw [hr] at htr
        exact hdead i rest s a _ ha hrec ⟨rfl, hdisk, ⟨evs, htr, hb⟩, hrepo, by simp [Res.isPanic]⟩
      · rw [h _ hr]
        rw [hr] at htr
        exact hdead i rest s a _ ha hrec
          ⟨rfl, hdisk, ⟨evs, htr, hb⟩, Or.inl hrepo, fun _ => hidx⟩

end Loop
/-! ## Build records only grow -/

section Grows
variable {W : Type}

theorem GrowsAt.grows_refl (uid : String) (A : RepositoryMetadata) : GrowsAt uid A A :=
  ⟨fun _ _ => rfl, fun a ha => ⟨a, ha, rfl, fun _ _ h => h⟩⟩

theorem GrowsAt.grows_trans {uid : String} {A B C : RepositoryMetadata} (h1 : GrowsAt uid A B)
    (h2 : GrowsAt uid B C) : GrowsAt uid A C := by
  refine ⟨fun x hx => (h2.1 x hx).trans (h1.1 x hx), fun a ha => ?_⟩
  obtain ⟨b, hb, hd, hr⟩ := h1.2 a ha
  obtain ⟨c, hc, hd2, hr2⟩ := h2.2 b hb
  exact ⟨c, hc, hd2.trans hd, fun t x h => hr2 t x (hr t x h)⟩

theorem entry_eq_of_slot_eq {A B : RepositoryMetadata} {x : String} (h : B.slot x = A.slot x) :
    B.entry x = A.entry x := by
  simp only [RepositoryMetadata.entry, h]

theorem GrowsAt.keeps {uid : String} {A B : RepositoryMetadata} (h : GrowsAt uid A B)
    (u t : String) (x : Option Release) (hx : A.record u t = some x) :
    B.record u t = some x := by
  by_cases hu : uid = u
  · subst hu
    cases ha : A.entry uid with
    | none => simp [RepositoryMetadata.record, ha] at hx
    | some a =>
      obtain ⟨b, hb, _, hr⟩ := h.2 a ha
      rw [record_of_entry A uid t a ha] at hx
      rw [record_of_entry B uid t b hb]
      exact hr t x hx
  · have he : B.entry u = A.entry u := entry_eq_of_slot_eq (h.1 u hu)
    simpa only [RepositoryMetadata.record, he] using hx

theorem growsAt_initReleases (r : RepositoryMetadata) (uid : String) (a : AppMetadata)
    (ha : r.entry uid = some a) : GrowsAt uid r (r.initReleases uid a) := by
  refine ⟨fun x hx => slot_initReleases_ne r uid a x hx, fun a1 ha1 => ?_⟩
  have e : a1 = a := by rw [ha] at ha1; exact (Option.some.inj ha1).symm
  subst e
  exact ⟨_, entry_initReleases r uid a1 ha, rfl, fun t x h => by simpa using h⟩

theorem growsAt_addRecord (r : RepositoryMetadata) (uid : String) (a : AppMetadata)
    (i : String) (rel : Release) (ha : r.entry uid = some a)
    (hno : (a.Releases.getD []).get? i = none) :
    GrowsAt uid r ((r.initReleases uid a).addRecord uid a i rel) := by
  refine ⟨fun x hx => ?_, fun a1 ha1 => ?_⟩
  · rw [slot_addRecord_ne _ _ _ _ _ _ hx, slot_initReleases_ne _ _ _ _ hx]
  · have e : a1 = a := by rw [ha] at ha1; exact (Option.some.inj ha1).symm
    subst e
    refine ⟨{ a1 with Releases := some (GoMap.set (a1.Releases.getD []) i (some rel)) },
      by rw [entry_addRecord]; simp, rfl, fun t x h => ?_⟩
    simp only [Option.getD_some, GoMap.get?_set]
    by_cases hit : i = t
    · subst hit; rw [hno] at h; cases h
    · simpa [hit] using h

theorem BodyOk.ok_grows {app : AppMetadata} {i : String} {s t : State W} {a : AppMetadata}
    (h : BodyOk app i s a t) (ha : s.repo.entry app.UniqueId = some a)
    (hno : (a.Releases.getD []).get? i = none) : GrowsAt app.UniqueId s.repo t.repo := by
  obtain ⟨rel, tar, xdc, evs, _, hrepo, _⟩ := h
  rw [hrepo]
  exact growsAt_addRecord s.repo app.UniqueId a i _ ha hno

theorem BodyOk.record {app : AppMetadata} {i : String} {s t : State W} {a : AppMetadata}
    (h : BodyOk app i s a t) :
    ∃ rel tar xdc, GoMap.index app.Releases i = some rel ∧
      t.repo.record app.UniqueId i = some (some (releaseRecord app i rel tar xdc)) := by
  obtain ⟨rel, tar, xdc, evs, hidx, hrepo, _⟩ := h
  refine ⟨rel, tar, xdc, hidx, ?_⟩
  have he : t.repo.entry app.UniqueId = some { a with Releases := some (GoMap.set
      (a.Releases.getD []) i (some (releaseRecord app i rel tar xdc))) } := by
    rw [hrepo, entry_addRecord]; simp
  rw [record_of_entry _ _ _ _ he]
  simp [GoMap.get?_set]

theorem BodyOk.entry {app : AppMetadata} {i : String} {s t : State W} {a : AppMetadata}
    (h : BodyOk app i s a t) : ∃ b, t.repo.entry app.UniqueId = some b := by
  obtain ⟨rel, tar, xdc, evs, hidx, hrepo, _⟩ := h
  exact ⟨{ a with Releases := some (GoMap.set (a.Releases.getD []) i
    (some (releaseRecord app i rel tar xdc))) }, by rw [hrepo, entry_addRecord]; simp⟩

theorem BodyDead.dead_grows {app : AppMetadata} {i : String} {s : State W} {a : AppMetadata}
    {r : Res (State W) Unit} (h : BodyDead app i s a r)
    (ha : s.repo.entry app.UniqueId = some a)
    (hno : (a.Releases.getD []).get? i = none) : GrowsAt app.UniqueId s.repo r.state.repo := by
  obtain ⟨_, _, _, hrepo, _⟩ := h
  rcases hrepo with h0 | ⟨rel, tar, xdc, _, h1⟩
  · rw [h0]; exact growsAt_initReleases s.repo app.UniqueId a ha
  · rw [h1]; exact growsAt_addRecord s.repo app.UniqueId a i _ ha hno

/-- However the release loop ends, the catalog has only grown under the
identity of the manifest. -/
theorem releaseLoop_grows (env : Env W) (app : AppMetadata) (dirname : String)
    (ks : List String) (s : State W) (a : AppMetadata)
    (ha : s.repo.entry app.UniqueId = some a) :
    GrowsAt app.UniqueId s.repo (releaseLoop env app dirname ks s).state.repo := by
  refine releaseLoop_cases env app dirname
    (fun _ s r => GrowsAt app.UniqueId s.repo r.state.repo) ?_ ?_ ?_ ?_ ks s a ha
  · intro s; exact GrowsAt.grows_refl _ _
  · intro i rest s a _ _ h; exact h
  · intro i rest s a r ha hno hd; exact hd.dead_grows ha hno
  · intro i rest s a t ha hno hb h; exact (hb.ok_grows ha hno).grows_trans h

/-- A release loop that returns leaves a build record for every tag it
visited. -/
theorem releaseLoop_done (env : Env W) (app : AppMetadata) (dirname : String)
    (ks : List String) (s : State W) (a : AppMetadata)
    (ha : s.repo.entry app.UniqueId = some a) (t : State W)
    (h : releaseLoop env app dirname ks s = .ok () t) :
    ∀ k ∈ ks, t.repo.record app.UniqueId k ≠ none := by
  have := releaseLoop_cases env app dirname
    (fun ks s r => ∀ t, r = .ok () t → ∀ k ∈ ks, t.repo.record app.UniqueId k ≠ none)
    ?_ ?_ ?_ ?_ ks s a ha
  · exact this t h
  · intro s t _ k hk; cases hk
  · intro i rest s a ha hrec ih t ht k hk
    rcases List.mem_cons.1 hk with rfl | hk
    · have hg := releaseLoop_grows env app dirname rest s a ha
      rw [ht, Res.state_ok] at hg
      obtain ⟨x, hx⟩ := Option.isSome_iff_exists.1 hrec
      have h1 : s.repo.record app.UniqueId k = some x := by
        rw [record_of_entry _ _ _ _ ha]; exact hx
      rw [hg.keeps _ _ _ h1]; simp
    · exact ih t ht k hk
  · intro i rest s a r _ _ hd t ht
    rw [ht] at hd; exact absurd hd.1 (by simp [Res.isOk])
  · intro i rest s a t1 ha hno hb ih t ht k hk
    rcases List.mem_cons.1 hk with rfl | hk
    · obtain ⟨b, hbe⟩ := hb.entry
      have hg := releaseLoop_grows env app dirname rest t1 b hbe
      rw [ht, Res.state_ok] at hg
      obtain ⟨rel, tar, xdc, _, hr⟩ := hb.record
      rw [hg.keeps _ _ _ hr]; simp
    · exact ih t ht k hk

/-- When every tag already has a build record the release loop does nothing. -/
theorem releaseLoop_noop (env : Env W) (app : AppMetadata) (dirname : String)
    (ks : List String) (s : State W) (a : AppMetadata)
    (ha : s.repo.entry app.UniqueId = some a)
    (hall : ∀ k ∈ ks, s.repo.record app.UniqueId k ≠ none) :
    releaseLoop env app dirname ks s = .ok () s := by
  induction ks with
  | nil => rfl
  | cons i rest ih =>
    have hi := hall i (List.mem_cons_self _ _)
    rw [record_of_entry _ _ _ _ ha] at hi
    obtain ⟨x, hx⟩ := Option.ne_none_iff_exists'.1 hi
    have h : releaseLoop env app dirname (i :: rest) s = releaseLoop env app dirname rest s := by
      simp only [releaseLoop, bind_apply, entryOf_apply, ha, hx, Option.isSome_some, if_true]
    rw [h]
    exact ih fun k hk => hall k (List.mem_cons_of_mem _ hk)

end Grows
/-! ## The metadata merge and `walk` -/

section Walk
variable {W : Type}

@[simp] theorem Res.as_state {σ α β : Type} (b : β) (r : Res σ α) : (r.as b).state = r.state := by
  cases r <;> rfl

@[simp] theorem Res.as_isOk {σ α β : Type} (b : β) (r : Res σ α) : (r.as b).isOk = r.isOk := by
  cases r <;> rfl

@[simp] theorem Res.as_isPanic {σ α β : Type} (b : β) (r : Res σ α) :
    (r.as b).isPanic = r.isPanic := by
  cases r <;> rfl

@[simp] theorem Res.as_cause {σ α β : Type} (b : β) (r : Res σ α) : (r.as b).cause = r.cause := by
  cases r <;> rfl

theorem Res.as_eq_ok {σ β : Type} (b x : β) (r : Res σ Unit) (t : σ) (h : r.as b = .ok x t) :
    r = .ok () t ∧ x = b := by
  cases r with
  | ok a s => simp only [Res.as, Res.ok.injEq] at h; exact ⟨by rw [h.2], h.1.symm⟩
  | fatal c s => simp [Res.as] at h
  | panic s => simp [Res.as] at h

/-- The merge panics on a nil `Apps` map and on a nil pointer stored under the
identity; otherwise it returns with the merged catalog. -/
theorem merge_apply (app : AppMetadata) (s : State W) :
    (merge app s = .panic s ∧ (s.repo.Apps = none ∨ s.repo.slot app.UniqueId = some none)) ∨
    (merge app s = .ok () { s with repo := mergeRepo app s.repo } ∧
      s.repo.Apps ≠ none ∧ s.repo.slot app.UniqueId ≠ some none) := by
  simp only [merge, bind_apply, getState_apply, mergeRepo, RepositoryMetadata.entry]
  cases hs : s.repo.slot app.UniqueId with
  | none =>
    cases hA : s.repo.Apps with
    | none => exact Or.inl ⟨rfl, Or.inl rfl⟩
    | some apps =>
      refine Or.inr ⟨?_, by simp, by simp⟩
      simp only [RepositoryMetadata.withEntry, hA, Option.getD_some, mergedEntry, Option.join,
        Option.bind]
  | some p =>
    cases p with
    | none => exact Or.inl ⟨rfl, Or.inr rfl⟩
    | some a =>
      refine Or.inr ⟨?_, ?_, by simp⟩
      · simp only [bind_apply, deref_some, setEntry_apply]
        rfl
      · intro hA
        simp [RepositoryMetadata.slot, hA, GoMap.get?] at hs

theorem entry_mergeRepo (app : AppMetadata) (r : RepositoryMetadata) :
    (mergeRepo app r).entry app.UniqueId = some (mergedEntry app (r.entry app.UniqueId)) := by
  simp [mergeRepo, RepositoryMetadata.entry_withEntry]

theorem slot_mergeRepo (app : AppMetadata) (r : RepositoryMetadata) (x : String) :
    (mergeRepo app r).slot x =
      if app.UniqueId = x then some (some (mergedEntry app (r.entry app.UniqueId)))
      else r.slot x := by
  simp [mergeRepo, RepositoryMetadata.slot_withEntry]

theorem record_mergeRepo (app : AppMetadata) (r : RepositoryMetadata) (u t : String) :
    (mergeRepo app r).record u t = r.record u t := by
  by_cases hu : app.UniqueId = u
  · subst hu
    rw [record_of_entry _ _ _ _ (entry_mergeRepo app r)]
    cases ha : r.entry app.UniqueId with
    | none => simp [RepositoryMetadata.record, ha, mergedEntry, GoMap.get?]
    | some a => simp [RepositoryMetadata.record, ha, mergedEntry]
  · have hs : (mergeRepo app r).slot u = r.slot u := by rw [slot_mergeRepo]; simp [hu]
    simp only [RepositoryMetadata.record, entry_eq_of_slot_eq hs]

theorem isManifest_iff (e : WalkEntry) (app : AppMetadata) :
    e.isManifest app ↔ e.manifest? = some app := by
  unfold WalkEntry.isManifest WalkEntry.manifest?
  cases h1 : e.err <;> cases h2 : e.isDir <;> cases h3 : hasSuffix e.name ".json" <;>
    cases h4 : e.content <;> simp

/-- An entry that is not a manifest file leaves the state as it is. -/
theorem walk_not_manifest (env : Env W) (e : WalkEntry) (s : State W)
    (h : e.manifest? = none) : walk env e s = .ok e.error? s := by
  unfold WalkEntry.manifest? at h
  unfold walk WalkEntry.error?
  cases h1 : e.err <;> cases h2 : e.isDir <;> cases h3 : hasSuffix e.name ".json" <;>
    cases h4 : e.content <;> simp [h1, h2, h3, h4] at h ⊢

/-- The three ways `walk` can go on a manifest file: the merge panics, the
first `save` fails, or the release loop runs from the merged and saved
catalog. -/
theorem walk_manifest (env : Env W) (e : WalkEntry) (app : AppMetadata) (s : State W)
    (he : e.isManifest app) :
    (walk env e s = .panic s ∧ (s.repo.Apps = none ∨ s.repo.slot app.UniqueId = some none)) ∨
    (s.repo.Apps ≠ none ∧ s.repo.slot app.UniqueId ≠ some none ∧
      ((env.writeFile s.world "build/meta.json" (mergeRepo app s.repo) = none ∧
        walk env e s = .fatal .writeFile { s with repo := mergeRepo app s.repo }) ∨
       ∃ w, env.writeFile s.world "build/meta.json" (mergeRepo app s.repo) = some w ∧
         walk env e s =
           (releaseLoop env app (GoPath.dir e.p) (GoMap.keys app.Releases)
             (afterMerge app s w)).as none)) := by
  obtain ⟨h1, h2, h3, h4⟩ := he
  have hw : walk env e s = ((do
      merge app
      save env
      releaseLoop env app (GoPath.dir e.p) (GoMap.keys app.Releases)
      pure none) : M W (Option WalkError)) s := by
    simp only [walk, h1, h2, h3, h4, Bool.false_eq_true, if_false, Bool.not_true]
  rw [hw]
  simp only [bind_apply]
  rcases merge_apply app s with ⟨hm, hc⟩ | ⟨hm, hA, hS⟩
  · exact Or.inl ⟨by rw [hm], hc⟩
  · refine Or.inr ⟨hA, hS, ?_⟩
    rw [hm]
    simp only [save]
    cases env.writeFile s.world "build/meta.json" (mergeRepo app s.repo) with
    | none => exact Or.inl ⟨rfl, rfl⟩
    | some w =>
      refine Or.inr ⟨w, rfl, ?_⟩
      simp only [afterMerge]
      cases releaseLoop env app (GoPath.dir e.p) (GoMap.keys app.Releases)
        { repo := mergeRepo app s.repo, disk := some (mergeRepo app s.repo), world := w,
          trace := s.trace } <;> rfl

theorem afterMerge_entry (app : AppMetadata) (s : State W) (w : W) :
    (afterMerge app s w).repo.entry app.UniqueId =
      some (mergedEntry app (s.repo.entry app.UniqueId)) :=
  entry_mergeRepo app s.repo

end Walk
/-! ## Properties of the release loop -/

section LoopProps
variable {W : Type}

theorem record_initReleases (r : RepositoryMetadata) (uid : String) (a : AppMetadata)
    (ha : r.entry uid = some a) (u t : String) :
    (r.initReleases uid a).record u t = r.record u t := by
  by_cases hu : uid = u
  · subst hu
    rw [record_of_entry _ _ _ _ (entry_initReleases r uid a ha), record_of_entry _ _ _ _ ha]
    simp
  · simp only [RepositoryMetadata.record,
      entry_eq_of_slot_eq (slot_initReleases_ne r uid a u hu)]

theorem record_addRecord (r : RepositoryMetadata) (uid : String) (a : AppMetadata)
    (i : String) (rel : Release) (ha : r.entry uid = some a) (u t : String) :
    ((r.initReleases uid a).addRecord uid a i rel).record u t =
      if uid = u ∧ i = t then some (some rel) else r.record u t := by
  by_cases hu : uid = u
  · subst hu
    have he : ((r.initReleases uid a).addRecord uid a i rel).entry uid =
        some { a with Releases := some (GoMap.set (a.Releases.getD []) i (some rel)) } := by
      rw [entry_addRecord]; simp
    rw [record_of_entry _ _ _ _ he, record_of_entry _ _ _ _ ha]
    simp only [Option.getD_some, GoMap.get?_set, true_and]
  · have hs : ((r.initReleases uid a).addRecord uid a i rel).slot u = r.slot u := by
      rw [slot_addRecord_ne _ _ _ _ _ _ hu, slot_initReleases_ne _ _ _ _ hu]
    simp only [RepositoryMetadata.record, entry_eq_of_slot_eq hs, hu, false_and, if_false]

theorem BodyOk.record_ne {app : AppMetadata} {i : String} {s t : State W} {a : AppMetadata}
    (h : BodyOk app i s a t) (ha : s.repo.entry app.UniqueId = some a) (k : String)
    (hk : i ≠ k) : t.repo.record app.UniqueId k = s.repo.record app.UniqueId k := by
  obtain ⟨rel, tar, xdc, evs, _, hrepo, _⟩ := h
  rw [hrepo, record_addRecord _ _ _ _ _ ha]
  simp [hk]

/-- The release loop panics only on a nil release spec. -/
theorem releaseLoop_no_panic (env : Env W) (app : AppMetadata) (dirname : String)
    (ks : List String) (s : State W) (a : AppMetadata)
    (ha : s.repo.entry app.UniqueId = some a)
    (hspec : ∀ k ∈ ks, GoMap.index app.Releases k ≠ none) :
    (releaseLoop env app dirname ks s).isPanic = false := by
  have := releaseLoop_cases env app dirname
    (fun ks _ r => (∀ k ∈ ks, GoMap.index app.Releases k ≠ none) → r.isPanic = false)
    ?_ ?_ ?_ ?_ ks s a ha
  · exact this hspec
  · intro s _; rfl
  · intro i rest s a _ _ ih h
    exact ih fun k hk => h k (List.mem_cons_of_mem _ hk)
  · intro i rest s a r _ _ hd h
    cases hp : r.isPanic with
    | false => rfl
    | true => exact absurd (hd.2.2.2.2 hp) (h i (List.mem_cons_self _ _))
  · intro i rest s a t _ _ _ ih h
    exact ih fun k hk => h k (List.mem_cons_of_mem _ hk)

/-- The `build` calls of the release loop: each visited tag without a build
record once, and no other. -/
theorem releaseLoop_calls (env : Env W) (app : AppMetadata) (dirname : String)
    (ks : List String) (s : State W) (a : AppMetadata)
    (ha : s.repo.entry app.UniqueId = some a) :
    ∃ evs, (releaseLoop env app dirname ks s).state.trace = s.trace ++ evs ∧
      (buildCalls evs).Nodup ∧
      (∀ p ∈ buildCalls evs, p.1 = app.UniqueId ∧ p.2 ∈ ks ∧
        s.repo.record app.UniqueId p.2 = none) ∧
      ((releaseLoop env app dirname ks s).isOk = true → ∀ k ∈ ks,
        s.repo.record app.UniqueId k = none → (app.UniqueId, k) ∈ buildCalls evs) := by
  refine releaseLoop_cases env app dirname
    (fun ks s r => ∃ evs, r.state.trace = s.trace ++ evs ∧
      (buildCalls evs).Nodup ∧
      (∀ p ∈ buildCalls evs, p.1 = app.UniqueId ∧ p.2 ∈ ks ∧
        s.repo.record app.UniqueId p.2 = none) ∧
      (r.isOk = true → ∀ k ∈ ks,
        s.repo.record app.UniqueId k = none → (app.UniqueId, k) ∈ buildCalls evs))
    ?_ ?_ ?_ ?_ ks s a ha
  · intro s
    exact ⟨[], by simp, by simp [buildCalls], by simp [buildCalls], fun _ k hk => by cases hk⟩
  · intro i rest s a ha hrec ih
    obtain ⟨evs, ht, hnd, hmem, hall⟩ := ih
    refine ⟨evs, ht, hnd, fun p hp => ?_, fun hok k hk hno => ?_⟩
    · obtain ⟨h1, h2, h3⟩ := hmem p hp
      exact ⟨h1, List.mem_cons_of_mem _ h2, h3⟩
    · rcases List.mem_cons.1 hk with rfl | hk
      · rw [record_of_entry _ _ _ _ ha] at hno
        rw [hno] at hrec; cases hrec
      · exact hall hok k hk hno
  · intro i rest s a r ha hno hd
    obtain ⟨hok, _, ⟨evs, ht, hb⟩, _, _⟩ := hd
    refine ⟨_, ht, ?_, ?_, ?_⟩
    · simp [buildCalls, hb]
    · intro p hp
      simp only [buildCalls, hb, List.mem_singleton] at hp
      subst hp
      exact ⟨rfl, List.mem_cons_self _ _, by rw [record_of_entry _ _ _ _ ha]; exact hno⟩
    · intro h; rw [hok] at h; cases h
  · intro i rest s a t ha hno hb ih
    obtain ⟨e2, ht2, hnd, hmem, hall⟩ := ih
    obtain ⟨rel, tar, xdc, hidx, hrec⟩ := hb.record
    have hg := hb.ok_grows ha hno
    obtain ⟨rel1, tar1, xdc1, e1, _, _, _, ht1, hb1⟩ := id hb
    refine ⟨Event.build app.UniqueId i (s.repo.initReleases app.UniqueId a) s.disk ::
      (e1 ++ e2), ?_, ?_, ?_, ?_⟩
    · rw [ht2, ht1]; simp
    · have hc : buildCalls (Event.build app.UniqueId i (s.repo.initReleases app.UniqueId a)
          s.disk :: (e1 ++ e2)) = (app.UniqueId, i) :: buildCalls e2 := by
        simp [buildCalls, buildCalls_append, hb1]
      rw [hc]
      refine List.nodup_cons.2 ⟨fun hin => ?_, hnd⟩
      have := (hmem _ hin).2.2
      simp only at this
      rw [hrec] at this; cases this
    · intro p hp
      have hc : buildCalls (Event.build app.UniqueId i (s.repo.initReleases app.UniqueId a)
          s.disk :: (e1 ++ e2)) = (app.UniqueId, i) :: buildCalls e2 := by
        simp [buildCalls, buildCalls_append, hb1]
      rw [hc] at hp
      rcases List.mem_cons.1 hp with rfl | hp
      · exact ⟨rfl, List.mem_cons_self _ _, by rw [record_of_entry _ _ _ _ ha]; exact hno⟩
      · obtain ⟨h1, h2, h3⟩ := hmem p hp
        refine ⟨h1, List.mem_cons_of_mem _ h2, ?_⟩
        cases hs : s.repo.record app.UniqueId p.2 with
        | none => rfl
        | some x => rw [hg.keeps _ _ _ hs] at h3; cases h3
    · intro hok k hk hnok
      have hc : buildCalls (Event.build app.UniqueId i (s.repo.initReleases app.UniqueId a)
          s.disk :: (e1 ++ e2)) = (app.UniqueId, i) :: buildCalls e2 := by
        simp [buildCalls, buildCalls_append, hb1]
      rw [hc]
      by_cases hik : i = k
      · subst hik; exact List.mem_cons_self _ _
      · rcases List.mem_cons.1 hk with rfl | hk
        · exact absurd rfl hik
        · refine List.mem_cons_of_mem _ (hall hok k hk ?_)
          rw [hb.record_ne ha k hik]; exact hnok

/-- Every build record that the release loop adds is the record of lines 157 to
164 for the release spec of its tag. -/
theorem releaseLoop_new_records (env : Env W) (app : AppMetadata) (dirname : String)
    (ks : List String) (s : State W) (a : AppMetadata)
    (ha : s.repo.entry app.UniqueId = some a) (k : String) (x : Option Release)
    (hno : s.repo.record app.UniqueId k = none)
    (hx : (releaseLoop env app dirname ks s).state.repo.record app.UniqueId k = some x) :
    ∃ rel tar xdc, GoMap.index app.Releases k = some rel ∧
      x = some (releaseRecord app k rel tar xdc) := by
  have := releaseLoop_cases env app dirname
    (fun _ s r => s.repo.record app.UniqueId k = none →
      r.state.repo.record app.UniqueId k = some x →
      ∃ rel tar xdc, GoMap.index app.Releases k = some rel ∧
        x = some (releaseRecord app k rel tar xdc))
    ?_ ?_ ?_ ?_ ks s a ha
  · exact this hno hx
  · intro s h1 h2
    rw [Res.state_ok, h1] at h2; cases h2
  · intro i rest s a _ _ ih; exact ih
  · intro i rest s a r ha _ hd h1 h2
    obtain ⟨_, _, _, hrepo, _⟩ := hd
    rcases hrepo with h0 | ⟨rel, tar, xdc, hidx, hr1⟩
    · rw [h0, record_initReleases _ _ _ ha, h1] at h2; cases h2
    · rw [hr1, record_addRecord _ _ _ _ _ ha] at h2
      by_cases hik : i = k
      · subst hik
        simp only [true_and, if_true] at h2
        exact ⟨rel, tar, xdc, hidx, (Option.some.inj h2).symm⟩
      · simp only [hik, and_false, if_false] at h2
        rw [h1] at h2; cases h2
  · intro i rest s a t ha hnoi hb ih h1 h2
    by_cases hik : i = k
    · subst hik
      obtain ⟨rel, tar, xdc, hidx, hrec⟩ := hb.record
      obtain ⟨b, hbe⟩ := hb.entry
      have hg := releaseLoop_grows env app dirname rest t b hbe
      rw [hg.keeps _ _ _ hrec] at h2
      exact ⟨rel, tar, xdc, hidx, (Option.some.inj h2).symm⟩
    · exact ih (by rw [hb.record_ne ha k hik]; exact h1) h2

end LoopProps
/-! ## What is on disk when `build` is called -/

section Disk
variable {W : Type}

theorem synced_of_no_build (evs : List Event) (h : buildCalls evs = []) :
    ∀ ev ∈ evs, ev.synced := by
  induction evs with
  | nil => intro ev hev; cases hev
  | cons e es ih =>
    cases e with
    | build u t m d => simp [buildCalls] at h
    | run n a =>
      intro ev hev
      rcases List.mem_cons.1 hev with rfl | hev
      · exact trivial
      · exact ih (by simpa [buildCalls] using h) ev hev

theorem slot_of_entry {r : RepositoryMetadata} {uid : String} {a : AppMetadata}
    (h : r.entry uid = some a) : r.slot uid = some (some a) := by
  unfold RepositoryMetadata.entry at h
  cases hs : r.slot uid with
  | none => rw [hs] at h; cases h
  | some p =>
    rw [hs] at h
    cases p with
    | none => cases h
    | some b => simp only [Option.join] at h; simpa using h

theorem sameCatalog_initReleases (r : RepositoryMetadata) (uid : String) (a : AppMetadata)
    (ha : r.entry uid = some a) : sameCatalog r (r.initReleases uid a) := by
  intro x
  by_cases hx : uid = x
  · subst hx
    rw [slot_of_entry ha, slot_of_entry (entry_initReleases r uid a ha)]
    simp [normReleases]
  · rw [slot_initReleases_ne r uid a x hx]

/-- The `build` event of an iteration started with the catalog saved. -/
theorem synced_build (app : AppMetadata) (i : String) (s : State W) (a : AppMetadata)
    (ha : s.repo.entry app.UniqueId = some a) (hno : (a.Releases.getD []).get? i = none)
    (hsync : s.disk = some s.repo) :
    (Event.build app.UniqueId i (s.repo.initReleases app.UniqueId a) s.disk).synced :=
  ⟨s.repo, hsync, sameCatalog_initReleases s.repo app.UniqueId a ha,
    by rw [record_of_entry _ _ _ _ ha]; exact hno,
    _, _, entry_initReleases s.repo app.UniqueId a ha, rfl⟩

/-- Started with the catalog saved, the release loop calls `build` only with
the catalog saved, and returns with the catalog saved. -/
theorem releaseLoop_synced (env : Env W) (app : AppMetadata) (dirname : String)
    (ks : List String) (s : State W) (a : AppMetadata)
    (ha : s.repo.entry app.UniqueId = some a) (hsync : s.disk = some s.repo) :
    (∃ evs, (releaseLoop env app dirname ks s).state.trace = s.trace ++ evs ∧
      ∀ ev ∈ evs, ev.synced) ∧
    ((releaseLoop env app dirname ks s).isOk = true →
      (releaseLoop env app dirname ks s).state.disk =
        some (releaseLoop env app dirname ks s).state.repo) := by
  have := releaseLoop_cases env app dirname
    (fun _ s r => s.disk = some s.repo →
      (∃ evs, r.state.trace = s.trace ++ evs ∧ ∀ ev ∈ evs, ev.synced) ∧
      (r.isOk = true → r.state.disk = some r.state.repo))
    ?_ ?_ ?_ ?_ ks s a ha
  · exact this hsync
  · intro s h1; exact ⟨⟨[], by simp, fun ev hev => by cases hev⟩, fun _ => h1⟩
  · intro i rest s a _ _ ih; exact ih
  · intro i rest s a r ha hno hd h1
    obtain ⟨hok, _, ⟨evs, ht, hb⟩, _, _⟩ := hd
    refine ⟨⟨_, ht, fun ev hev => ?_⟩, fun h => by rw [hok] at h; cases h⟩
    rcases List.mem_cons.1 hev with rfl | hev
    · exact synced_build app i s a ha hno h1
    · exact synced_of_no_build evs hb ev hev
  · intro i rest s a t ha hno hb ih h1
    obtain ⟨rel, tar, xdc, evs, _, _, hdisk, ht, hbc⟩ := hb
    obtain ⟨⟨e2, ht2, hs2⟩, hok⟩ := ih hdisk
    refine ⟨⟨Event.build app.UniqueId i (s.repo.initReleases app.UniqueId a) s.disk ::
      (evs ++ e2), by rw [ht2, ht]; simp, fun ev hev => ?_⟩, hok⟩
    rcases List.mem_cons.1 hev with rfl | hev
    · exact synced_build app i s a ha hno h1
    · rcases List.mem_append.1 hev with hev | hev
      · exact synced_of_no_build evs hbc ev hev
      · exact hs2 ev hev

/-- A release loop ended by `log.Fatalln` died in the build of some tag: the
trace ends with that `build` call and commands, and the disk is the one the
call saw. -/
theorem releaseLoop_fatal (env : Env W) (app : AppMetadata) (dirname : String)
    (ks : List String) (s : State W) (a : AppMetadata)
    (ha : s.repo.entry app.UniqueId = some a) (c : Cause)
    (hc : (releaseLoop env app dirname ks s).cause = some c) :
    ∃ pre i mem post, i ∈ ks ∧
      (releaseLoop env app dirname ks s).state.trace =
        pre ++ Event.build app.UniqueId i mem (releaseLoop env app dirname ks s).state.disk ::
          post ∧
      buildCalls post = [] := by
  have := releaseLoop_cases env app dirname
    (fun ks _ r => r.cause = some c →
      ∃ pre i mem post, i ∈ ks ∧
        r.state.trace = pre ++ Event.build app.UniqueId i mem r.state.disk :: post ∧
        buildCalls post = [])
    ?_ ?_ ?_ ?_ ks s a ha
  · exact this hc
  · intro s h; cases h
  · intro i rest s a _ _ ih h
    obtain ⟨pre, k, mem, post, hk, ht, hb⟩ := ih h
    exact ⟨pre, k, mem, post, List.mem_cons_of_mem _ hk, ht, hb⟩
  · intro i rest s a r _ _ hd _
    obtain ⟨_, hdisk, ⟨evs, ht, hb⟩, _, _⟩ := hd
    exact ⟨s.trace, i, _, evs, List.mem_cons_self _ _, by rw [ht, hdisk], hb⟩
  · intro i rest s a t _ _ _ ih h
    obtain ⟨pre, k, mem, post, hk, ht, hb⟩ := ih h
    exact ⟨pre, k, mem, post, List.mem_cons_of_mem _ hk, ht, hb⟩

theorem walk_synced (env : Env W) (e : WalkEntry) (s : State W) :
    ∃ evs, (walk env e s).state.trace = s.trace ++ evs ∧ ∀ ev ∈ evs, ev.synced := by
  have hnil : ∃ evs : List Event, s.trace = s.trace ++ evs ∧ ∀ ev ∈ evs, ev.synced :=
    ⟨[], by simp, fun ev hev => by cases hev⟩
  cases hm : e.manifest? with
  | some app =>
    rcases walk_manifest env e app s ((isManifest_iff e app).2 hm) with
      ⟨h, _⟩ | ⟨_, _, ⟨_, h⟩ | ⟨w, _, h⟩⟩
    · rw [h]; exact hnil
    · rw [h]; exact hnil
    · rw [h, Res.as_state]
      exact (releaseLoop_synced env app _ _ (afterMerge app s w) _ (afterMerge_entry app s w)
        rfl).1
  | none =>
    rw [walk_not_manifest env e s hm]; exact hnil

theorem walk_fatal (env : Env W) (e : WalkEntry) (s : State W) (c : Cause)
    (hc : (walk env e s).cause = some c) (hw : c ≠ Cause.writeFile) :
    ∃ app pre i mem post, e.isManifest app ∧ i ∈ GoMap.keys app.Releases ∧
      (walk env e s).state.trace =
        pre ++ Event.build app.UniqueId i mem (walk env e s).state.disk :: post ∧
      buildCalls post = [] := by
  cases hm : e.manifest? with
  | some app =>
    have he := (isManifest_iff e app).2 hm
    rcases walk_manifest env e app s he with ⟨h, _⟩ | ⟨_, _, ⟨_, h⟩ | ⟨w, _, h⟩⟩
    · rw [h] at hc; cases hc
    · rw [h] at hc
      simp only [Res.cause, Option.some.injEq] at hc
      exact absurd hc.symm hw
    · rw [h, Res.as_cause] at hc
      obtain ⟨pre, i, mem, post, hi, ht, hb⟩ :=
        releaseLoop_fatal env app _ _ (afterMerge app s w) _ (afterMerge_entry app s w) c hc
      exact ⟨app, pre, i, mem, post, he, hi, by rw [h, Res.as_state]; exact ht, hb⟩
  | none =>
    rw [walk_not_manifest env e s hm] at hc; cases hc

/-- Unfolding of `filepath.Walk` at the first entry. -/
theorem filepathWalk_cons (env : Env W) (e : WalkEntry) (es : List WalkEntry) (s : State W) :
    filepathWalk env (e :: es) s =
      match walk env e s with
      | .ok none t => filepathWalk env es t
      | .ok (some err) t => .ok (some err) t
      | .fatal c t => .fatal c t
      | .panic t => .panic t := by
  simp only [filepathWalk, bind_apply]
  cases walk env e s with
  | ok x t => cases x <;> rfl
  | fatal c t => rfl
  | panic t => rfl

theorem filepathWalk_synced (env : Env W) (es : List WalkEntry) (s : State W) :
    ∃ evs, (filepathWalk env es s).state.trace = s.trace ++ evs ∧ ∀ ev ∈ evs, ev.synced := by
  induction es generalizing s with
  | nil => exact ⟨[], by simp [filepathWalk], fun ev hev => by cases hev⟩
  | cons e es ih =>
    rw [filepathWalk_cons]
    obtain ⟨e1, ht1, hs1⟩ := walk_synced env e s
    cases h : walk env e s with
    | ok x t =>
      rw [h] at ht1
      cases x with
      | none =>
        obtain ⟨e2, ht2, hs2⟩ := ih t
        refine ⟨e1 ++ e2, ?_, fun ev hev => ?_⟩
        · simp only [ht2]; rw [show t.trace = s.trace ++ e1 from ht1, List.append_assoc]
        · rcases List.mem_append.1 hev with hev | hev
          · exact hs1 ev hev
          · exact hs2 ev hev
      | some err => exact ⟨e1, ht1, hs1⟩
    | fatal c t => rw [h] at ht1; exact ⟨e1, ht1, hs1⟩
    | panic t => rw [h] at ht1; exact ⟨e1, ht1, hs1⟩

theorem filepathWalk_fatal (env : Env W) (es : List WalkEntry) (s : State W) (c : Cause)
    (hc : (filepathWalk env es s).cause = some c) (hw : c ≠ Cause.writeFile) :
    ∃ e app pre i mem post, e ∈ es ∧ e.isManifest app ∧ i ∈ GoMap.keys app.Releases ∧
      (filepathWalk env es s).state.trace =
        pre ++ Event.build app.UniqueId i mem (filepathWalk env es s).state.disk :: post ∧
      buildCalls post = [] := by
  induction es generalizing s with
  | nil => cases hc
  | cons e es ih =>
    rw [filepathWalk_cons] at hc ⊢
    have hf := walk_fatal env e s c
    cases h : walk env e s with
    | ok x t =>
      rw [h] at hc
      cases x with
      | none =>
        obtain ⟨e1, app, pre, i, mem, post, he1, hrest⟩ := ih t hc
        exact ⟨e1, app, pre, i, mem, post, List.mem_cons_of_mem _ he1, hrest⟩
      | some err => cases hc
    | fatal c1 t =>
      rw [h] at hc hf
      obtain ⟨app, pre, i, mem, post, hrest⟩ := hf hc hw
      exact ⟨e, app, pre, i, mem, post, List.mem_cons_self _ _, hrest⟩
    | panic t => rw [h] at hc; cases hc

/-! ## `main` -/

@[simp] theorem Res.map_state {σ α β : Type} (f : α → β) (r : Res σ α) :
    (r.map f).state = r.state := by
  cases r <;> rfl

@[simp] theorem Res.map_cause {σ α β : Type} (f : α → β) (r : Res σ α) :
    (r.map f).cause = r.cause := by
  cases r <;> rfl

@[simp] theorem Res.map_isPanic {σ α β : Type} (f : α → β) (r : Res σ α) :
    (r.map f).isPanic = r.isPanic := by
  cases r <;> rfl

@[simp] theorem Res.map_isOk {σ α β : Type} (f : α → β) (r : Res σ α) :
    (r.map f).isOk = r.isOk := by
  cases r <;> rfl

/-- The three ways `main` can go: a directory is missing, the meta file cannot
be decoded, or the tree is walked from the loaded catalog. -/
theorem main_cases (env : Env W) (appsDir buildDir : Bool) (file : MetaFile)
    (es : List WalkEntry) (w : W) :
    (main env appsDir buildDir file es w = .ok .missingDir (initState w file) ∧
      (appsDir = false ∨ buildDir = false)) ∨
    (main env appsDir buildDir file es w = .fatal .unmarshalMeta (initState w file) ∧
      file = .malformed ∧ appsDir = true ∧ buildDir = true) ∨
    (main env appsDir buildDir file es w =
        (filepathWalk env es (loadState w file)).map Exit.walked ∧
      appsDir = true ∧ buildDir = true ∧ file ≠ .malformed) := by
  unfold main mainFrom
  cases appsDir with
  | false => exact Or.inl ⟨rfl, Or.inl rfl⟩
  | true =>
    cases buildDir with
    | false => exact Or.inl ⟨rfl, Or.inr rfl⟩
    | true =>
      cases file with
      | malformed => exact Or.inr (Or.inl ⟨rfl, rfl, rfl, rfl⟩)
      | absent =>
        refine Or.inr (Or.inr ⟨?_, rfl, rfl, by simp⟩)
        simp only [Bool.not_true, Bool.false_eq_true, if_false, bind_apply, pure_apply]
        have : (loadState w MetaFile.absent : State W) = initState w MetaFile.absent := rfl
        rw [this]
        cases filepathWalk env es (initState w MetaFile.absent) <;> rfl
      | parsed r =>
        refine Or.inr (Or.inr ⟨?_, rfl, rfl, by simp⟩)
        simp only [Bool.not_true, Bool.false_eq_true, if_false, bind_apply]
        have : (loadState w (MetaFile.parsed r) : State W) =
            { initState w (MetaFile.parsed r) with repo := r } := rfl
        rw [this]
        cases filepathWalk env es { initState w (MetaFile.parsed r) with repo := r } <;> rfl

end Disk
/-! ## `path.Clean` and `path.Join` on plain elements -/

namespace GoPath

/-- The fuel of `cleanLoop` is enough as soon as it is the number of bytes left:
more fuel changes nothing. -/
theorem cleanLoop_fuel (rooted : Bool) (k : Nat) :
    ∀ (n : Nat) (rest out : List Char) (dotdot : Nat), rest.length ≤ n →
      cleanLoop rooted (n + k) rest out dotdot = cleanLoop rooted n rest out dotdot := by
  intro n
  induction n with
  | zero =>
    intro rest out dotdot h
    have hr : rest = [] := List.length_eq_zero.1 (Nat.le_zero.1 h)
    subst hr
    cases k <;> simp [cleanLoop]
  | succ n ih =>
    intro rest out dotdot h
    cases rest with
    | nil => rw [show n + 1 + k = (n + k) + 1 by omega]; simp [cleanLoop]
    | cons c rest =>
      have hl : rest.length ≤ n := by simpa using h
      have ht : rest.tail.length ≤ n := by
        have := List.length_tail rest
        omega
      have hd : ((c :: rest).dropWhile (fun x => x ≠ '/')).length ≤ n ∨ c = '/' := by
        by_cases hc : c = '/'
        · exact Or.inr hc
        · left
          have hp : decide (c ≠ '/') = true := by simpa using hc
          rw [List.dropWhile_cons, if_pos hp]
          exact le_trans (List.Sublist.length_le (List.dropWhile_sublist _)) hl
      rw [show n + 1 + k = (n + k) + 1 by omega]
      simp only [cleanLoop]
      split
      · exact ih _ _ _ hl
      · rename_i hc
        rcases hd with hd | hd
        swap
        · exact absurd hd hc
        split
        · exact ih _ _ _ hl
        · split
          · split
            · exact ih _ _ _ ht
            · split
              · exact ih _ _ _ ht
              · exact ih _ _ _ ht
          · exact ih _ _ _ hd

theorem slashed_head (segs : List (List Char)) :
    slashed segs = [] ∨ (slashed segs).head? = some '/' := by
  cases segs with
  | nil => exact Or.inl rfl
  | cons g segs => exact Or.inr rfl

theorem takeWhile_elem (g rest : List Char) (hg : '/' ∉ g)
    (hr : rest = [] ∨ rest.head? = some '/') :
    (g ++ rest).takeWhile (fun x => x ≠ '/') = g := by
  induction g with
  | nil =>
    rcases hr with rfl | hr
    · rfl
    · cases rest with
      | nil => rfl
      | cons c rest =>
        simp only [List.head?_cons, Option.some.injEq] at hr
        subst hr
        simp
  | cons c g ih =>
    have hc : c ≠ '/' := fun h => hg (by rw [h]; exact List.mem_cons_self _ _)
    have hg2 : '/' ∉ g := fun h => hg (List.mem_cons_of_mem _ h)
    have hd : decide (c ≠ '/') = true := by simpa using hc
    rw [List.cons_append, List.takeWhile_cons, if_pos hd, ih hg2]

theorem dropWhile_elem (g rest : List Char) (hg : '/' ∉ g)
    (hr : rest = [] ∨ rest.head? = some '/') :
    (g ++ rest).dropWhile (fun x => x ≠ '/') = rest := by
  induction g with
  | nil =>
    rcases hr with rfl | hr
    · rfl
    · cases rest with
      | nil => rfl
      | cons c rest =>
        simp only [List.head?_cons, Option.some.injEq] at hr
        subst hr
        simp
  | cons c g ih =>
    have hc : c ≠ '/' := fun h => hg (by rw [h]; exact List.mem_cons_self _ _)
    have hg2 : '/' ∉ g := fun h => hg (List.mem_cons_of_mem _ h)
    have hd : decide (c ≠ '/') = true := by simpa using hc
    rw [List.cons_append, List.dropWhile_cons, if_pos hd, ih hg2]

/-- One iteration of `path.Clean` at the start of a plain element: the element
is copied to the buffer, after a slash when the buffer is not empty. -/
theorem cleanLoop_elem (fuel : Nat) (g rest out : List Char) (hg : plainChars g)
    (hr : rest = [] ∨ rest.head? = some '/') :
    cleanLoop false (fuel + 1) (g ++ rest) out 0 =
      cleanLoop false fuel rest (g.reverse ++ (if out.length ≠ 0 then '/' :: out else out)) 0 := by
  obtain ⟨hne, hns, hd1, hd2⟩ := hg
  cases g with
  | nil => exact absurd rfl hne
  | cons c t =>
    have hc : c ≠ '/' := fun h => hns (by rw [h]; exact List.mem_cons_self _ _)
    have ht : '/' ∉ t := fun h => hns (List.mem_cons_of_mem _ h)
    have htw := takeWhile_elem (c :: t) rest hns hr
    have hdw := dropWhile_elem (c :: t) rest hns hr
    have hdot : ¬ (c = '.' ∧ (t ++ rest = [] ∨ (t ++ rest).head? = some '/')) := by
      rintro ⟨rfl, h⟩
      cases t with
      | nil => exact hd1 rfl
      | cons c2 t2 =>
        rcases h with h | h
        · cases h
        · simp only [List.cons_append, List.head?_cons, Option.some.injEq] at h
          exact ht (by rw [h]; exact List.mem_cons_self _ _)
    have hdotdot : ¬ (c = '.' ∧ (t ++ rest).head? = some '.' ∧
        ((t ++ rest).tail = [] ∨ (t ++ rest).tail.head? = some '/')) := by
      rintro ⟨rfl, h1, h2⟩
      cases t with
      | nil =>
        exact hd1 rfl
      | cons c2 t2 =>
        simp only [List.cons_append, List.head?_cons, Option.some.injEq] at h1
        subst h1
        simp only [List.cons_append, List.tail_cons] at h2
        cases t2 with
        | nil => exact hd2 rfl
        | cons c3 t3 =>
          rcases h2 with h2 | h2
          · cases h2
          · simp only [List.cons_append, List.head?_cons, Option.some.injEq] at h2
            exact ht (by rw [h2]; simp)
    have hstep : cleanLoop false (fuel + 1) (c :: (t ++ rest)) out 0 =
        cleanLoop false fuel ((c :: (t ++ rest)).dropWhile (fun x => x ≠ '/'))
          (((c :: (t ++ rest)).takeWhile (fun x => x ≠ '/')).reverse ++
            (if (false = true ∧ out.length ≠ 1) ∨ ((!false) = true ∧ out.length ≠ 0)
              then '/' :: out else out)) 0 := by
      rw [cleanLoop]
      rw [if_neg hc, if_neg hdot, if_neg hdotdot]
    rw [List.cons_append, hstep]
    rw [← List.cons_append, htw, hdw]
    simp

/-- The loop of `path.Clean` copies a sequence of plain elements as it is. -/
theorem cleanLoop_slashed (segs : List (List Char)) (hs : ∀ g ∈ segs, plainChars g) :
    ∀ (fuel : Nat) (out : List Char), (slashed segs).length ≤ fuel →
      cleanLoop false fuel (slashed segs) out 0 = copied out segs := by
  induction segs with
  | nil =>
    intro fuel out _
    cases fuel <;> rfl
  | cons g segs ih =>
    intro fuel out hf
    have hg := hs g (List.mem_cons_self _ _)
    have hlen : (slashed (g :: segs)).length = 1 + g.length + (slashed segs).length := by
      simp [slashed]; omega
    have hgl : 0 < g.length := List.length_pos.2 hg.1
    obtain ⟨f2, rfl⟩ : ∃ f2, fuel = f2 + 2 := ⟨fuel - 2, by omega⟩
    have h1 : cleanLoop false (f2 + 2) (slashed (g :: segs)) out 0 =
        cleanLoop false (f2 + 1) (g ++ slashed segs) out 0 := by
      simp [slashed, cleanLoop]
    rw [h1, cleanLoop_elem f2 g (slashed segs) out hg (slashed_head segs)]
    rw [ih (fun x hx => hs x (List.mem_cons_of_mem _ hx)) f2 _ (by omega)]
    rfl

theorem copied_reverse (segs : List (List Char)) :
    ∀ out : List Char, out ≠ [] → (copied out segs).reverse = out.reverse ++ slashed segs ∧
      copied out segs ≠ [] := by
  induction segs with
  | nil => intro out h; exact ⟨by simp [copied, slashed], h⟩
  | cons g segs ih =>
    intro out h
    have hl : out.length ≠ 0 := fun e => h (List.length_eq_zero.1 e)
    have := ih (g.reverse ++ '/' :: out) (by simp)
    simp only [copied, hl, ne_eq, not_false_eq_true, if_true]
    refine ⟨?_, this.2⟩
    rw [this.1]
    simp [slashed]

/-- `path.Clean` leaves a relative path of plain elements as it is. -/
theorem cleanChars_relPath (g : List Char) (segs : List (List Char)) (hg : plainChars g)
    (hs : ∀ x ∈ segs, plainChars x) : cleanChars (relPath g segs) = relPath g segs := by
  have hne : relPath g segs ≠ [] := by
    intro h
    exact hg.1 (List.append_eq_nil.1 h).1
  have hroot : (relPath g segs).head? ≠ some '/' := by
    intro h
    cases g with
    | nil => exact hg.1 rfl
    | cons c t =>
      simp only [relPath, List.cons_append, List.head?_cons, Option.some.injEq] at h
      exact hg.2.1 (by rw [h]; exact List.mem_cons_self _ _)
  obtain ⟨n, hn⟩ : ∃ n, (relPath g segs).length = n + 1 :=
    ⟨(relPath g segs).length - 1, by
      have := List.length_pos.2 hne
      omega⟩
  have hloop : cleanLoop false (relPath g segs).length (relPath g segs) [] 0 =
      copied g.reverse segs := by
    rw [hn]
    unfold relPath
    rw [cleanLoop_elem n g (slashed segs) [] hg (slashed_head segs)]
    rw [cleanLoop_slashed segs hs n _ (by
      have hgl : 0 < g.length := List.length_pos.2 hg.1
      simp [relPath] at hn; omega)]
    simp
  have hrev := copied_reverse segs g.reverse (by simpa using hg.1)
  unfold cleanChars
  simp only [hne, if_false, hroot, decide_False, Bool.false_eq_true, hloop]
  rw [if_neg (fun h => hrev.2 (List.length_eq_zero.1 h)), hrev.1]
  simp [relPath]

end GoPath
namespace GoPath

theorem joinBuf_of_ne_nil (es : List String) :
    ∀ buf : List Char, buf ≠ [] → joinBuf buf es = buf ++ slashed (es.map String.data) := by
  induction es with
  | nil => intro buf _; simp [joinBuf, slashed]
  | cons e es ih =>
    intro buf hb
    have hl : 0 < buf.length := List.length_pos.2 hb
    simp only [joinBuf, hl, true_or, if_true, List.map_cons, slashed]
    rw [ih _ (by simp)]
    simp

theorem plainChars_of_plainSeg {s : String} (h : plainSeg s = true) : plainChars s.data := by
  unfold plainSeg at h
  exact of_decide_eq_true h

theorem length_pos_of_plainSeg {s : String} (h : plainSeg s = true) : 0 < s.length :=
  List.length_pos.2 (plainChars_of_plainSeg h).1

/-- `path.Join` of a plain element and further plain elements is the elements
separated by slashes. -/
theorem join_plain (e : String) (es : List String) (he : plainSeg e = true)
    (hes : ∀ x ∈ es, plainChars x.data) :
    join (e :: es) = String.mk (relPath e.data (es.map String.data)) := by
  have hpos := length_pos_of_plainSeg he
  have hsum : (List.map String.length (e :: es)).sum ≠ 0 := by
    simp only [List.map_cons, List.sum_cons]; omega
  have hne : e.data ≠ [] := (plainChars_of_plainSeg he).1
  have hbuf : joinBuf [] (e :: es) = relPath e.data (es.map String.data) := by
    have h0 : e ≠ "" := by
      intro h; rw [h] at hne; exact hne rfl
    simp only [joinBuf, List.length_nil, Nat.lt_irrefl, false_or, h0, ne_eq, not_false_eq_true,
      if_true, if_false, List.nil_append]
    exact joinBuf_of_ne_nil es e.data hne
  unfold join
  rw [if_neg hsum, hbuf]
  unfold clean
  simp only
  rw [cleanChars_relPath e.data _ (plainChars_of_plainSeg he)]
  intro x hx
  obtain ⟨y, hy, rfl⟩ := List.mem_map.1 hx
  exact hes y hy

theorem plainChars_append (g suf : List Char) (hg : plainChars g) (hs : '/' ∉ suf)
    (hl : 2 ≤ suf.length) : plainChars (g ++ suf) := by
  obtain ⟨hne, hns, _, _⟩ := hg
  have hgl : 0 < g.length := List.length_pos.2 hne
  refine ⟨by simp [hne], ?_, ?_, ?_⟩
  · intro h
    rcases List.mem_append.1 h with h | h
    · exact hns h
    · exact hs h
  · intro h
    have := congrArg List.length h
    simp at this; omega
  · intro h
    have := congrArg List.length h
    simp at this; omega

/-- The two published paths of a release, for a plain identity and tag. -/
theorem join_release (uid tag ext : String) (hu : plainSeg uid = true)
    (ht : plainSeg tag = true) (he : '/' ∉ ext.data) (hl : 2 ≤ ext.data.length) :
    join [uid, tag, uid ++ ext] = uid ++ "/" ++ tag ++ "/" ++ uid ++ ext := by
  rw [join_plain uid _ hu]
  · apply String.ext
    simp [relPath, slashed, String.data_append]
  · intro x hx
    simp only [List.mem_cons, List.mem_singleton, List.not_mem_nil, or_false] at hx
    rcases hx with rfl | rfl
    · exact plainChars_of_plainSeg ht
    · rw [String.data_append]
      exact plainChars_append _ _ (plainChars_of_plainSeg hu) he hl

/-- The banner path, for a plain identity and a banner that is a relative path
of plain elements. -/
theorem join_banner (uid banner : String) (g : List Char) (segs : List (List Char))
    (hu : plainSeg uid = true) (hb : banner.data = relPath g segs) (hg : plainChars g)
    (hs : ∀ x ∈ segs, plainChars x) :
    join [uid, banner] = uid ++ "/" ++ banner := by
  have hsum : (List.map String.length [uid, banner]).sum ≠ 0 := by
    have := length_pos_of_plainSeg hu
    simp only [List.map_cons, List.sum_cons, List.map_nil, List.sum_nil]; omega
  have hne : uid.data ≠ [] := (plainChars_of_plainSeg hu).1
  have h0 : uid ≠ "" := by
    intro h; rw [h] at hne; exact hne rfl
  have hbuf : joinBuf [] [uid, banner] = relPath uid.data (g :: segs) := by
    simp only [joinBuf, List.length_nil, Nat.lt_irrefl, false_or, h0, ne_eq, not_false_eq_true,
      if_true, if_false, List.nil_append, List.length_pos.2 hne, true_or, hb]
    simp [relPath, slashed]
  unfold join
  rw [if_neg hsum, hbuf]
  unfold clean
  simp only
  rw [cleanChars_relPath uid.data _ (plainChars_of_plainSeg hu)]
  · apply String.ext
    simp [relPath, slashed, String.data_append, hb]
  · intro x hx
    rcases List.mem_cons.1 hx with rfl | hx
    · exact hg
    · exact hs x hx

end GoPath
/-! ## The effect of `walk` on the catalog -/

section WalkEffect
variable {W : Type}

/-- Unless the merge panics, `walk` on a manifest ends with the merged catalog
grown by build records under the identity of the manifest. -/
theorem walk_manifest_grows (env : Env W) (e : WalkEntry) (app : AppMetadata) (s : State W)
    (he : e.isManifest app) :
    (walk env e s = .panic s ∧ (s.repo.Apps = none ∨ s.repo.slot app.UniqueId = some none)) ∨
    (s.repo.Apps ≠ none ∧ s.repo.slot app.UniqueId ≠ some none ∧
      GrowsAt app.UniqueId (mergeRepo app s.repo) (walk env e s).state.repo) := by
  rcases walk_manifest env e app s he with h | ⟨hA, hS, ⟨_, h⟩ | ⟨w, _, h⟩⟩
  · exact Or.inl h
  · exact Or.inr ⟨hA, hS, by rw [h]; exact GrowsAt.grows_refl _ _⟩
  · refine Or.inr ⟨hA, hS, ?_⟩
    rw [h, Res.as_state]
    exact releaseLoop_grows env app _ _ (afterMerge app s w) _ (afterMerge_entry app s w)

theorem walk_keeps (env : Env W) (e : WalkEntry) (s : State W) (u t : String)
    (x : Option Release) (h : s.repo.record u t = some x) :
    (walk env e s).state.repo.record u t = some x := by
  cases hm : e.manifest? with
  | some app =>
    rcases walk_manifest_grows env e app s ((isManifest_iff e app).2 hm) with
      ⟨hp, _⟩ | ⟨_, _, hg⟩
    · rw [hp]; exact h
    · exact hg.keeps u t x (by rw [record_mergeRepo]; exact h)
  | none => rw [walk_not_manifest env e s hm]; exact h

theorem filepathWalk_keeps (env : Env W) (es : List WalkEntry) (s : State W) (u t : String)
    (x : Option Release) (h : s.repo.record u t = some x) :
    (filepathWalk env es s).state.repo.record u t = some x := by
  induction es generalizing s with
  | nil => exact h
  | cons e es ih =>
    rw [filepathWalk_cons]
    have hk := walk_keeps env e s u t x h
    cases hw : walk env e s with
    | ok r s1 =>
      rw [hw] at hk
      cases r with
      | none => exact ih s1 hk
      | some err => exact hk
    | fatal c s1 => rw [hw] at hk; exact hk
    | panic s1 => rw [hw] at hk; exact hk

theorem mem_keys_get? {V : Type} (m : GoMap V) (k : String) (h : k ∈ m.map Prod.fst) :
    ∃ v, GoMap.get? m k = some v := by
  induction m with
  | nil => cases h
  | cons hd tl ih =>
    obtain ⟨k1, v1⟩ := hd
    by_cases hk : k1 = k
    · exact ⟨v1, by simp [GoMap.get?, hk]⟩
    · simp only [List.map_cons, List.mem_cons] at h
      rcases h with h | h
      · exact absurd h.symm hk
      · obtain ⟨v, hv⟩ := ih h
        exact ⟨v, by simp [GoMap.get?, hk, hv]⟩

end WalkEffect
/-! ## A malformed manifest -/

section Malformed
variable {W : Type}

theorem walk_malformed (env : Env W) (e : WalkEntry) (s : State W) (h : e.isMalformed) :
    walk env e s = .ok (some .unmarshal) s := by
  obtain ⟨h1, h2, h3, h4⟩ := h
  simp [walk, h1, h2, h3, h4]

theorem filepathWalk_malformed (env : Env W) (pre post : List WalkEntry) (bad : WalkEntry)
    (hbad : bad.isMalformed) (s : State W) :
    filepathWalk env (pre ++ bad :: post) s =
      (filepathWalk env pre s).stoppedBy .unmarshal := by
  induction pre generalizing s with
  | nil =>
    rw [List.nil_append, filepathWalk_cons, walk_malformed env bad s hbad]
    rfl
  | cons e pre ih =>
    rw [List.cons_append, filepathWalk_cons, filepathWalk_cons]
    cases walk env e s with
    | ok x t =>
      cases x with
      | none => exact ih t
      | some err => rfl
    | fatal c t => rfl
    | panic t => rfl

end Malformed

/-! ## A second run -/

section Rerun
variable {W : Type}

theorem mergedEntry_congr (m : AppMetadata) (x y : Option AppMetadata)
    (h : x.bind AppMetadata.Releases = y.bind AppMetadata.Releases) :
    mergedEntry m x = mergedEntry m y := by
  simp only [mergedEntry, h]

theorem mergedEntry_fixed (m b : AppMetadata) (h : b.desc = (mergedEntry m none).desc) :
    mergedEntry m (some b) = b := by
  cases b
  simp only [AppMetadata.desc, mergedEntry, AppMetadata.mk.injEq] at h
  obtain ⟨h1, h2, h3, h4, h5, h6, h7, _⟩ := h
  simp [mergedEntry, h1, h2, h3, h4, h5, h6, h7]

theorem apps_isSome_of_entry {r : RepositoryMetadata} {u : String} {b : AppMetadata}
    (h : r.entry u = some b) : r.Apps.isSome = true := by
  cases hA : r.Apps with
  | some a => rfl
  | none =>
    have := slot_of_entry h
    simp [RepositoryMetadata.slot, hA, GoMap.get?] at this

/-- Whatever `walk` does, an entry of the catalog stays an entry. -/
theorem walk_keeps_entry (env : Env W) (e : WalkEntry) (s : State W) (u : String)
    (h : ∃ b, s.repo.entry u = some b) : ∃ b, (walk env e s).state.repo.entry u = some b := by
  cases hm : e.manifest? with
  | none => rw [walk_not_manifest env e s hm]; exact h
  | some app =>
    rcases walk_manifest_grows env e app s ((isManifest_iff e app).2 hm) with
      ⟨hp, _⟩ | ⟨_, _, hg⟩
    · rw [hp]; exact h
    · by_cases hu : app.UniqueId = u
      · subst hu
        obtain ⟨b, hb, _⟩ := hg.2 _ (entry_mergeRepo app s.repo)
        exact ⟨b, hb⟩
      · obtain ⟨b, hb⟩ := h
        refine ⟨b, ?_⟩
        rw [entry_eq_of_slot_eq (hg.1 u hu)]
        have : (mergeRepo app s.repo).slot u = s.repo.slot u := by
          rw [slot_mergeRepo]; simp [hu]
        rw [entry_eq_of_slot_eq this]; exact hb

theorem walk_keeps_ready (env : Env W) (e : WalkEntry) (s : State W) (m : AppMetadata)
    (h : Ready m s.repo) : Ready m (walk env e s).state.repo := by
  refine ⟨walk_keeps_entry env e s _ h.1, fun k hk => ?_⟩
  obtain ⟨x, hx⟩ := Option.ne_none_iff_exists'.1 (h.2 k hk)
  rw [walk_keeps env e s _ _ x hx]; simp

theorem filepathWalk_keeps_ready (env : Env W) (es : List WalkEntry) (s : State W)
    (m : AppMetadata) (h : Ready m s.repo) : Ready m (filepathWalk env es s).state.repo := by
  induction es generalizing s with
  | nil => exact h
  | cons e es ih =>
    rw [filepathWalk_cons]
    have hk := walk_keeps_ready env e s m h
    cases hw : walk env e s with
    | ok r s1 =>
      rw [hw] at hk
      cases r with
      | none => exact ih s1 hk
      | some err => exact hk
    | fatal c s1 => rw [hw] at hk; exact hk
    | panic s1 => rw [hw] at hk; exact hk

/-- What a `walk` that returns has done for its manifest: the catalog has the
entry with the descriptive fields of the manifest and a build record for each
declared tag, and the other identities are as before. -/
theorem walk_returns (env : Env W) (e : WalkEntry) (app : AppMetadata) (s t : State W)
    (r : Option WalkError) (he : e.isManifest app) (h : walk env e s = .ok r t) :
    r = none ∧ Ready app t.repo ∧
    (∃ b, t.repo.slot app.UniqueId = some (some b) ∧ b.desc = (mergedEntry app none).desc) ∧
    ∀ x, app.UniqueId ≠ x → t.repo.slot x = s.repo.slot x := by
  have hg := walk_manifest_grows env e app s he
  rcases walk_manifest env e app s he with ⟨hp, _⟩ | ⟨_, _, ⟨_, hf⟩ | ⟨w, _, hl⟩⟩
  · rw [hp] at h; cases h
  · rw [hf] at h; cases h
  · rw [hl] at h
    obtain ⟨hloop, hr⟩ := Res.as_eq_ok none r _ t h
    rcases hg with ⟨hp, _⟩ | ⟨_, _, hg⟩
    · rw [hl, hloop] at hp; cases hp
    rw [hl, Res.as_state, hloop, Res.state_ok] at hg
    obtain ⟨b, hb, hd, _⟩ := hg.2 _ (entry_mergeRepo app s.repo)
    refine ⟨hr, ⟨⟨b, hb⟩, ?_⟩, ⟨b, slot_of_entry hb, hd⟩, fun x hx => ?_⟩
    · exact releaseLoop_done env app _ _ (afterMerge app s w) _ (afterMerge_entry app s w) t
        hloop
    · rw [hg.1 x hx, slot_mergeRepo]; simp [hx]

/-- A first run that returns: it returns the error that stops the walk, every
manifest it processed is ready in its catalog, and each identity has the
entry described by the last manifest processed for it, or the slot it had. -/
theorem filepathWalk_returns (env : Env W) (es : List WalkEntry) (s c : State W)
    (err : Option WalkError) (h : filepathWalk env es s = .ok err c) :
    err = walkError es ∧ (∀ m ∈ walked es, Ready m c.repo) ∧
    ∀ u, match lastFor u (walked es) with
      | some m => ∃ b, c.repo.slot u = some (some b) ∧ b.desc = (mergedEntry m none).desc
      | none => c.repo.slot u = s.repo.slot u := by
  induction es generalizing s with
  | nil =>
    simp only [filepathWalk, pure_apply, Res.ok.injEq] at h
    obtain ⟨h1, h2⟩ := h
    subst h1 h2
    exact ⟨rfl, fun m hm => (by cases hm), fun u => rfl⟩
  | cons e es ih =>
    rw [filepathWalk_cons] at h
    cases hm : e.manifest? with
    | none =>
      rw [walk_not_manifest env e s hm] at h
      cases he : e.error? with
      | none =>
        rw [he] at h
        obtain ⟨h1, h2, h3⟩ := ih s h
        refine ⟨?_, ?_, ?_⟩
        · simp only [walkError, hm, he, Option.isSome_none, Bool.false_eq_true, if_false]
          exact h1
        · simpa only [walked, hm, he, Option.isSome_none, Bool.false_eq_true, if_false] using h2
        · simpa only [walked, hm, he, Option.isSome_none, Bool.false_eq_true, if_false] using h3
      | some er =>
        rw [he] at h
        simp only [Res.ok.injEq] at h
        obtain ⟨h1, h2⟩ := h
        subst h1 h2
        refine ⟨?_, ?_, ?_⟩
        · simp only [walkError, hm, he, Option.isSome_some, if_true]
        · simp only [walked, hm, he, Option.isSome_some, if_true]
          intro m hmem; cases hmem
        · simp only [walked, hm, he, Option.isSome_some, if_true, lastFor]
          intro u; trivial
    | some app =>
      have he := (isManifest_iff e app).2 hm
      cases hw : walk env e s with
      | fatal c1 t => rw [hw] at h; cases h
      | panic t => rw [hw] at h; cases h
      | ok r t =>
        obtain ⟨hr, hready, ⟨b, hb, hd⟩, hothers⟩ := walk_returns env e app s t r he hw
        subst hr
        rw [hw] at h
        simp only at h
        obtain ⟨h1, h2, h3⟩ := ih t h
        have hc : c = (filepathWalk env es t).state := by rw [h]; rfl
        refine ⟨?_, ?_, ?_⟩
        · simp only [walkError, hm]; exact h1
        · simp only [walked, hm]
          intro m hmem
          rcases List.mem_cons.1 hmem with rfl | hmem
          · rw [hc]; exact filepathWalk_keeps_ready env es t m hready
          · exact h2 m hmem
        · intro u
          have h3u := h3 u
          simp only [walked, hm, lastFor]
          cases hl : lastFor u (walked es) with
          | some m1 => rw [hl] at h3u; exact h3u
          | none =>
            rw [hl] at h3u
            simp only at h3u ⊢
            by_cases hu : app.UniqueId = u
            · subst hu
              simp only [if_true]
              exact ⟨b, by rw [h3u]; exact hb, hd⟩
            · simp only [hu, if_false]
              rw [h3u]; exact hothers u hu

end Rerun
section Rerun2
variable {W : Type}

theorem entry_mergeRepo_releases (app : AppMetadata) (r : RepositoryMetadata) (u : String) :
    ((mergeRepo app r).entry u).bind AppMetadata.Releases =
      (r.entry u).bind AppMetadata.Releases := by
  by_cases hu : app.UniqueId = u
  · subst hu
    rw [entry_mergeRepo]
    rfl
  · have : (mergeRepo app r).slot u = r.slot u := by rw [slot_mergeRepo]; simp [hu]
    rw [entry_eq_of_slot_eq this]

theorem ready_mergeRepo (app m : AppMetadata) (r : RepositoryMetadata) (h : Ready m r) :
    Ready m (mergeRepo app r) := by
  refine ⟨?_, fun k hk => by rw [record_mergeRepo]; exact h.2 k hk⟩
  by_cases hu : app.UniqueId = m.UniqueId
  · rw [← hu, entry_mergeRepo]; exact ⟨_, rfl⟩
  · have : (mergeRepo app r).slot m.UniqueId = r.slot m.UniqueId := by
      rw [slot_mergeRepo]; simp [hu]
    rw [entry_eq_of_slot_eq this]; exact h.1

/-- On a manifest that is ready in the catalog, `walk` merges, saves, builds
nothing and returns, unless the `save` fails. -/
theorem walk_ready (env : Env W) (e : WalkEntry) (app : AppMetadata) (t : State W)
    (he : e.isManifest app) (hr : Ready app t.repo) :
    (env.writeFile t.world "build/meta.json" (mergeRepo app t.repo) = none ∧
      walk env e t = .fatal .writeFile { t with repo := mergeRepo app t.repo }) ∨
    ∃ w, env.writeFile t.world "build/meta.json" (mergeRepo app t.repo) = some w ∧
      walk env e t = .ok none (afterMerge app t w) := by
  obtain ⟨b, hb⟩ := hr.1
  rcases walk_manifest env e app t he with ⟨_, h | h⟩ | ⟨_, _, h | ⟨w, hw, h⟩⟩
  · have := apps_isSome_of_entry hb
    rw [h] at this; cases this
  · rw [slot_of_entry hb] at h; cases h
  · exact Or.inl h
  · refine Or.inr ⟨w, hw, ?_⟩
    rw [h, releaseLoop_noop env app _ _ (afterMerge app t w) _ (afterMerge_entry app t w)]
    · rfl
    · intro k hk
      have : (afterMerge app t w).repo.record app.UniqueId k = t.repo.record app.UniqueId k :=
        record_mergeRepo app t.repo _ k
      rw [this]; exact hr.2 k hk

/-- A walk over entries whose manifests are all ready in the catalog: nothing
is built and no command is run, the only way to die is a failing `save`, and
when the walk returns each identity has the entry of the last manifest
processed for it, with the `Releases` map it had, or the slot it had. -/
theorem filepathWalk_again (env : Env W) (es : List WalkEntry) (t : State W)
    (hready : ∀ m ∈ walked es, Ready m t.repo) :
    (filepathWalk env es t).state.trace = t.trace ∧
    (filepathWalk env es t).isPanic = false ∧
    ((filepathWalk env es t).cause = none ∨
      (filepathWalk env es t).cause = some Cause.writeFile) ∧
    (∀ err c, filepathWalk env es t = .ok err c →
      err = walkError es ∧ c.repo.Apps.isSome = t.repo.Apps.isSome ∧
      ∀ u, c.repo.slot u =
        match lastFor u (walked es) with
        | some m => some (some (mergedEntry m (t.repo.entry u)))
        | none => t.repo.slot u) ∧
    ((∀ v n r, (env.writeFile v n r).isSome = true) →
      (filepathWalk env es t).isOk = true) := by
  induction es generalizing t with
  | nil =>
    refine ⟨rfl, rfl, Or.inl rfl, ?_, fun _ => rfl⟩
    intro err c h
    simp only [filepathWalk, pure_apply, Res.ok.injEq] at h
    obtain ⟨h1, h2⟩ := h
    subst h1 h2
    exact ⟨rfl, rfl, fun u => rfl⟩
  | cons e es ih =>
    rw [filepathWalk_cons]
    cases hm : e.manifest? with
    | none =>
      rw [walk_not_manifest env e t hm]
      cases he : e.error? with
      | none =>
        have hw : walked (e :: es) = walked es := by
          simp only [walked, hm, he, Option.isSome_none, Bool.false_eq_true, if_false]
        have hwe : walkError (e :: es) = walkError es := by
          simp only [walkError, hm, he, Option.isSome_none, Bool.false_eq_true, if_false]
        rw [hw] at hready
        rw [hw, hwe]
        exact ih t hready
      | some er =>
        have hw : walked (e :: es) = [] := by
          simp only [walked, hm, he, Option.isSome_some, if_true]
        have hwe : walkError (e :: es) = some er := by
          simp only [walkError, hm, he, Option.isSome_some, if_true]
        rw [hw, hwe]
        refine ⟨rfl, rfl, Or.inl rfl, ?_, fun _ => rfl⟩
        intro err c h
        simp only [Res.ok.injEq] at h
        obtain ⟨h1, h2⟩ := h
        subst h1 h2
        exact ⟨rfl, rfl, fun u => rfl⟩
    | some app =>
      have he := (isManifest_iff e app).2 hm
      have hw : walked (e :: es) = app :: walked es := by simp only [walked, hm]
      have hwe : walkError (e :: es) = walkError es := by simp only [walkError, hm]
      rw [hw] at hready
      rw [hw, hwe]
      have hra : Ready app t.repo := hready app (List.mem_cons_self _ _)
      rcases walk_ready env e app t he hra with ⟨hnone, hf⟩ | ⟨w, _, hok⟩
      · rw [hf]
        refine ⟨rfl, rfl, Or.inr rfl, fun err c h => (by cases h), fun hall => ?_⟩
        have := hall t.world "build/meta.json" (mergeRepo app t.repo)
        rw [hnone] at this; cases this
      · rw [hok]
        simp only
        have hready2 : ∀ m ∈ walked es, Ready m (afterMerge app t w).repo := fun m hmem =>
          ready_mergeRepo app m t.repo (hready m (List.mem_cons_of_mem _ hmem))
        obtain ⟨h1, h2, h3, h4, h5⟩ := ih (afterMerge app t w) hready2
        refine ⟨h1, h2, h3, fun err c h => ?_, h5⟩
        obtain ⟨g1, g2, g3⟩ := h4 err c h
        obtain ⟨b, hb⟩ := hra.1
        have hrepo : (afterMerge app t w).repo = mergeRepo app t.repo := rfl
        rw [hrepo] at g2 g3
        refine ⟨g1, ?_, fun u => ?_⟩
        · rw [g2, apps_isSome_of_entry hb]; rfl
        · rw [g3 u]
          simp only [lastFor]
          cases hl : lastFor u (walked es) with
          | some m1 =>
            simp only
            rw [mergedEntry_congr m1 _ _ (entry_mergeRepo_releases app t.repo u)]
          | none =>
            simp only
            rw [slot_mergeRepo]
            by_cases hu : app.UniqueId = u
            · subst hu; simp
            · simp [hu]

end Rerun2
/-! ## The claims -/

section Claims
variable {W : Type}

/-- C1: processing a directory entry with `walk` (the metadata merge followed
by the release loop) never removes or changes an existing build record,
however the builds end: a record slot that the catalog has for an
(identity, tag) pair before the step holds the identical record after it, also
when the manifest has the same identity and declares the same tag; and the
same holds for a whole walk over any sequence of entries. -/
theorem walk_keeps_build_records (env : Env W) (e : WalkEntry) (es : List WalkEntry)
    (s : State W) (uid tag : String) (rec : Option Release)
    (h : s.repo.record uid tag = some rec) :
    (walk env e s).state.repo.record uid tag = some rec ∧
    (filepathWalk env es s).state.repo.record uid tag = some rec :=
  ⟨walk_keeps env e s uid tag rec h, filepathWalk_keeps env es s uid tag rec h⟩

/-- C2: whenever the metadata merge of `walk` returns, the entry stored under
the identity of the manifest has the name, identity, short description,
description, source and supported releases of the manifest, and the `Releases`
map of the entry it replaces (none for a new entry), while every other identity
has the slot it had; and the merge does return for every catalog whose `Apps`
map is not nil and which stores no nil pointer under that identity. -/
theorem merge_upserts_entry (app : AppMetadata) (s : State W) :
    (∀ t, merge app s = .ok () t →
      ∃ a, t.repo.slot app.UniqueId = some (some a) ∧
        a.Name = app.Name ∧ a.UniqueId = app.UniqueId ∧
        a.ShortDescription = app.ShortDescription ∧ a.Description = app.Description ∧
        a.Source = app.Source ∧ a.SupportedReleases = app.SupportedReleases ∧
        a.Releases = (s.repo.entry app.UniqueId).bind AppMetadata.Releases ∧
        ∀ x, x ≠ app.UniqueId → t.repo.slot x = s.repo.slot x) ∧
    (s.repo.Apps ≠ none → s.repo.slot app.UniqueId ≠ some none →
      (merge app s).isOk = true) := by
  rcases merge_apply app s with ⟨hp, _⟩ | ⟨hm, hA, hS⟩
  · refine ⟨fun t h => ?_, fun hA hS => ?_⟩
    · rw [hp] at h; cases h
    · rename_i hc
      rcases hc with h | h
      · exact absurd h hA
      · exact absurd h hS
  · refine ⟨fun t h => ?_, fun _ _ => by rw [hm]; rfl⟩
    rw [hm] at h
    simp only [Res.ok.injEq, true_and] at h
    subst h
    refine ⟨mergedEntry app (s.repo.entry app.UniqueId), ?_, rfl, rfl, rfl, rfl, rfl, rfl,
      rfl, fun x hx => ?_⟩
    · simp [slot_mergeRepo]
    · have : ¬ app.UniqueId = x := fun h => hx h.symm
      simp [slot_mergeRepo, this]

/-- C3: while `walk` processes a manifest, the `build` calls it makes are for
the identity of the manifest and for tags that the manifest declares and that
had no build record at the start of the step, each at most once; and when
`walk` returns, every such tag has been passed to `build`. -/
theorem walk_builds_exactly_unbuilt (env : Env W) (e : WalkEntry) (app : AppMetadata)
    (s : State W) (he : e.isManifest app) :
    ∃ evs, (walk env e s).state.trace = s.trace ++ evs ∧
      (buildCalls evs).Nodup ∧
      (∀ p ∈ buildCalls evs, p.1 = app.UniqueId ∧ p.2 ∈ GoMap.keys app.Releases ∧
        s.repo.record app.UniqueId p.2 = none) ∧
      ((walk env e s).isOk = true → ∀ k ∈ GoMap.keys app.Releases,
        s.repo.record app.UniqueId k = none → (app.UniqueId, k) ∈ buildCalls evs) := by
  have hnil : ∀ r : Res (State W) (Option WalkError), r.state.trace = s.trace →
      r.isOk = false →
      ∃ evs, r.state.trace = s.trace ++ evs ∧ (buildCalls evs).Nodup ∧
      (∀ p ∈ buildCalls evs, p.1 = app.UniqueId ∧ p.2 ∈ GoMap.keys app.Releases ∧
        s.repo.record app.UniqueId p.2 = none) ∧
      (r.isOk = true → ∀ k ∈ GoMap.keys app.Releases,
        s.repo.record app.UniqueId k = none → (app.UniqueId, k) ∈ buildCalls evs) := by
    intro r h1 h2
    exact ⟨[], by simp [h1], by simp [buildCalls], by simp [buildCalls],
      fun h => by rw [h2] at h; cases h⟩
  rcases walk_manifest env e app s he with ⟨h, _⟩ | ⟨_, _, ⟨_, h⟩ | ⟨w, _, h⟩⟩
  · rw [h]; exact hnil _ rfl rfl
  · rw [h]; exact hnil _ rfl rfl
  · rw [h, Res.as_state, Res.as_isOk]
    obtain ⟨evs, ht, hnd, hmem, hall⟩ := releaseLoop_calls env app (GoPath.dir e.p)
      (GoMap.keys app.Releases) (afterMerge app s w) _ (afterMerge_entry app s w)
    have hrec : ∀ k, (afterMerge app s w).repo.record app.UniqueId k =
        s.repo.record app.UniqueId k := fun k => record_mergeRepo app s.repo _ k
    refine ⟨evs, ht, hnd, fun p hp => ?_, fun hok k hk hno => ?_⟩
    · obtain ⟨h1, h2, h3⟩ := hmem p hp
      exact ⟨h1, h2, by rw [← hrec]; exact h3⟩
    · exact hall hok k hk (by rw [hrec]; exact hno)

/-- C5: when a run dies by the `log.Fatalln` of the build capability, of a
relocation or of the hashing (in `build`, `run` or `sha512String`), it died in
the build of a release that a manifest of the tree declares: the `build` call
for it is the last one in the trace, the catalog on disk is the one that call
saw, which is the catalog in memory at that moment, and it has no build record
for that release. -/
theorem build_failure_keeps_saved_catalog (env : Env W) (appsDir buildDir : Bool)
    (file : MetaFile) (es : List WalkEntry) (w : W) (c : Cause) (t : State W)
    (h : main env appsDir buildDir file es w = .fatal c t)
    (hc : c = .mkdirTemp ∨ c = .run ∨ c = .sha512) :
    ∃ e app tag mem D pre post, e ∈ es ∧ e.isManifest app ∧
      tag ∈ GoMap.keys app.Releases ∧
      t.trace = pre ++ Event.build app.UniqueId tag mem (some D) :: post ∧
      buildCalls post = [] ∧ t.disk = some D ∧ sameCatalog D mem ∧
      D.record app.UniqueId tag = none := by
  have hw : c ≠ Cause.writeFile := by rcases hc with rfl | rfl | rfl <;> decide
  have hu : c ≠ Cause.unmarshalMeta := by rcases hc with rfl | rfl | rfl <;> decide
  rcases main_cases env appsDir buildDir file es w with ⟨hm, _⟩ | ⟨hm, _⟩ | ⟨hm, _⟩
  · rw [hm] at h; cases h
  · rw [hm] at h
    simp only [Res.fatal.injEq] at h
    exact absurd h.1.symm hu
  · have hcause : (filepathWalk env es (loadState w file)).cause = some c := by
      have := congrArg Res.cause h
      rw [hm, Res.map_cause] at this
      exact this
    have hstate : (filepathWalk env es (loadState w file)).state = t := by
      have := congrArg Res.state h
      rw [hm, Res.map_state] at this
      exact this
    obtain ⟨e, app, pre, tag, mem, post, he, hman, htag, htr, hb⟩ :=
      filepathWalk_fatal env es (loadState w file) c hcause hw
    obtain ⟨evs, hevs, hsync⟩ := filepathWalk_synced env es (loadState w file)
    rw [hstate] at htr hevs
    have hmem : Event.build app.UniqueId tag mem t.disk ∈ evs := by
      have : (loadState w file : State W).trace = [] := rfl
      rw [this, List.nil_append] at hevs
      rw [← hevs, htr]
      simp
    obtain ⟨D, hD, hsame, hrec, _⟩ := hsync _ hmem
    refine ⟨e, app, tag, mem, D, pre, post, he, hman, htag, ?_, hb, hD, hsame, hrec⟩
    rw [htr, hD]

/-- C6: at every `build` call of a run, the catalog on disk is the catalog in
memory as a mapping from identities to entries, an absent release mapping
counted as empty. -/
theorem build_call_sees_saved_catalog (env : Env W) (appsDir buildDir : Bool)
    (file : MetaFile) (es : List WalkEntry) (w : W) (uid tag : String)
    (mem : RepositoryMetadata) (disk : Option RepositoryMetadata)
    (h : Event.build uid tag mem disk ∈ (main env appsDir buildDir file es w).state.trace) :
    ∃ D, disk = some D ∧ sameCatalog D mem := by
  rcases main_cases env appsDir buildDir file es w with ⟨hm, _⟩ | ⟨hm, _⟩ | ⟨hm, _⟩
  · rw [hm] at h; cases h
  · rw [hm] at h; cases h
  · rw [hm, Res.map_state] at h
    obtain ⟨evs, hevs, hsync⟩ := filepathWalk_synced env es (loadState w file)
    have : (loadState w file : State W).trace = [] := rfl
    rw [this, List.nil_append] at hevs
    rw [hevs] at h
    obtain ⟨D, hD, hsame, _⟩ := hsync _ h
    exact ⟨D, hD, hsame⟩

end Claims
section Claims2
variable {W : Type}

/-- C9: for an identity and a release tag that are single plain path elements,
a build record that `walk` writes for them has the published paths
`id/tag/id.tar.gz` and `id/tag/id.xdc` and the image and command of the release
spec of the manifest; and when `walk` returns, it has written that record. -/
theorem walk_writes_release_paths (env : Env W) (e : WalkEntry) (app : AppMetadata)
    (s : State W) (tag : String) (he : e.isManifest app)
    (hu : GoPath.plainSeg app.UniqueId = true) (ht : GoPath.plainSeg tag = true)
    (hk : tag ∈ GoMap.keys app.Releases) (hno : s.repo.record app.UniqueId tag = none) :
    (∀ x, (walk env e s).state.repo.record app.UniqueId tag = some x →
      ∃ rel tar xdc, GoMap.index app.Releases tag = some rel ∧
        x = some
          { Image := rel.Image
            Command := rel.Command
            SourceTarball := app.UniqueId ++ "/" ++ tag ++ "/" ++ app.UniqueId ++ ".tar.gz"
            WebXDCDownload := app.UniqueId ++ "/" ++ tag ++ "/" ++ app.UniqueId ++ ".xdc"
            XdcSha512sum := xdc
            TarSha512sum := tar }) ∧
    ((walk env e s).isOk = true →
      (walk env e s).state.repo.record app.UniqueId tag ≠ none) := by
  have hform : ∀ rel tar xdc, releaseRecord app tag rel tar xdc =
      { Image := rel.Image
        Command := rel.Command
        SourceTarball := app.UniqueId ++ "/" ++ tag ++ "/" ++ app.UniqueId ++ ".tar.gz"
        WebXDCDownload := app.UniqueId ++ "/" ++ tag ++ "/" ++ app.UniqueId ++ ".xdc"
        XdcSha512sum := xdc
        TarSha512sum := tar } := by
    intro rel tar xdc
    unfold releaseRecord
    rw [GoPath.join_release app.UniqueId tag ".tar.gz" hu ht (by decide) (by decide),
      GoPath.join_release app.UniqueId tag ".xdc" hu ht (by decide) (by decide)]
  rcases walk_manifest env e app s he with ⟨h, _⟩ | ⟨_, _, ⟨_, h⟩ | ⟨w, _, h⟩⟩
  · rw [h]
    refine ⟨fun x hx => ?_, fun h => by cases h⟩
    rw [Res.state_panic, hno] at hx
    cases hx
  · rw [h]
    refine ⟨fun x hx => ?_, fun h => by cases h⟩
    rw [Res.state_fatal] at hx
    simp only [record_mergeRepo, hno] at hx
    cases hx
  · rw [h, Res.as_state, Res.as_isOk]
    have hno2 : (afterMerge app s w).repo.record app.UniqueId tag = none := by
      rw [← hno]; exact record_mergeRepo app s.repo _ tag
    refine ⟨fun x hx => ?_, fun hok => ?_⟩
    · obtain ⟨rel, tar, xdc, hidx, hx2⟩ := releaseLoop_new_records env app _ _
        (afterMerge app s w) _ (afterMerge_entry app s w) tag x hno2 hx
      exact ⟨rel, tar, xdc, hidx, by rw [hx2, hform]⟩
    · cases hr : releaseLoop env app (GoPath.dir e.p) (GoMap.keys app.Releases)
        (afterMerge app s w) with
      | ok u t =>
        exact releaseLoop_done env app _ _ (afterMerge app s w) _ (afterMerge_entry app s w) t
          hr tag hk
      | fatal c t => rw [hr] at hok; cases hok
      | panic t => rw [hr] at hok; cases hok

/-- C10: for a catalog whose `Apps` map is not nil and whose entries are all
non-nil pointers, and a manifest whose release specs are all non-nil, `walk`
does not panic, however the builds end: the merge returns and leaves an entry
under the identity of the manifest, and at every `build` call (so before the
build record is inserted) the `Releases` map of that entry is not nil. -/
theorem walk_does_not_panic (env : Env W) (e : WalkEntry) (s : State W)
    (hA : s.repo.Apps ≠ none) (hE : ∀ uid, s.repo.slot uid ≠ some none)
    (hR : ∀ app, e.manifest? = some app →
      ∀ k, GoMap.get? (app.Releases.getD []) k ≠ some none) :
    (walk env e s).isPanic = false ∧
    (∀ app, e.manifest? = some app →
      ∃ t b, merge app s = .ok () t ∧ t.repo.entry app.UniqueId = some b) ∧
    (∃ evs, (walk env e s).state.trace = s.trace ++ evs ∧
      ∀ u k mem d, Event.build u k mem d ∈ evs →
        ∃ a rs, mem.entry u = some a ∧ a.Releases = some rs) := by
  refine ⟨?_, ?_, ?_⟩
  · cases hm : e.manifest? with
    | none => rw [walk_not_manifest env e s hm]; rfl
    | some app =>
      rcases walk_manifest env e app s ((isManifest_iff e app).2 hm) with
        ⟨_, h | h⟩ | ⟨_, _, ⟨_, h⟩ | ⟨w, _, h⟩⟩
      · exact absurd h hA
      · exact absurd h (hE _)
      · rw [h]; rfl
      · rw [h, Res.as_isPanic]
        refine releaseLoop_no_panic env app _ _ (afterMerge app s w) _
          (afterMerge_entry app s w) fun k hk => ?_
        obtain ⟨v, hv⟩ := mem_keys_get? (app.Releases.getD []) k hk
        cases v with
        | none => exact absurd hv (hR app hm k)
        | some rel => simp [GoMap.index, hv]
  · intro app _
    rcases merge_apply app s with ⟨_, h | h⟩ | ⟨hm, _, _⟩
    · exact absurd h hA
    · exact absurd h (hE _)
    · exact ⟨_, _, hm, entry_mergeRepo app s.repo⟩
  · obtain ⟨evs, ht, hs⟩ := walk_synced env e s
    refine ⟨evs, ht, fun u k mem d hmem => ?_⟩
    obtain ⟨_, _, _, _, hrel⟩ := hs _ hmem
    exact hrel

/-- C8, as amended: whenever the metadata merge returns, the banner path stored
under the identity of the manifest is `path.Join(identity, banner)`; it is the
identity, a slash and the declared banner path when the identity is a plain
path element and the banner a relative path of plain elements.  The merge
returns for every catalog whose `Apps` map is not nil and which stores no nil
pointer under the identity, and then the same banner path is in the catalog
when `walk` has ended, whatever the path of the manifest file. -/
theorem banner_path_is_joined (env : Env W) (e : WalkEntry) (app : AppMetadata)
    (s : State W) (he : e.isManifest app) :
    (∀ t, merge app s = .ok () t →
      ∃ a, t.repo.entry app.UniqueId = some a ∧
        a.Banner = GoPath.join [app.UniqueId, app.Banner] ∧
        ∀ g segs, GoPath.plainSeg app.UniqueId = true →
          app.Banner.data = GoPath.relPath g segs → GoPath.plainChars g →
          (∀ x ∈ segs, GoPath.plainChars x) →
          a.Banner = app.UniqueId ++ "/" ++ app.Banner) ∧
    (s.repo.Apps ≠ none → s.repo.slot app.UniqueId ≠ some none →
      (merge app s).isOk = true ∧
      ∃ a, (walk env e s).state.repo.entry app.UniqueId = some a ∧
        a.Banner = GoPath.join [app.UniqueId, app.Banner]) := by
  refine ⟨fun t h => ?_, fun hA hS => ?_⟩
  · rcases merge_apply app s with ⟨hp, _⟩ | ⟨hm, _, _⟩
    · rw [hp] at h; cases h
    · rw [hm] at h
      simp only [Res.ok.injEq, true_and] at h
      subst h
      refine ⟨_, entry_mergeRepo app s.repo, rfl, fun g segs hu hbd hg1 hs1 => ?_⟩
      exact GoPath.join_banner app.UniqueId app.Banner g segs hu hbd hg1 hs1
  · refine ⟨?_, ?_⟩
    · rcases merge_apply app s with ⟨_, h | h⟩ | ⟨hm, _, _⟩
      · exact absurd h hA
      · exact absurd h hS
      · rw [hm]; rfl
    · rcases walk_manifest_grows env e app s he with ⟨_, h | h⟩ | ⟨_, _, hg⟩
      · exact absurd h hA
      · exact absurd h hS
      · obtain ⟨b, hb, hd, _⟩ := hg.2 _ (entry_mergeRepo app s.repo)
        have hban : b.Banner = GoPath.join [app.UniqueId, app.Banner] := by
          have := congrArg AppMetadata.Banner hd
          simpa [AppMetadata.desc, mergedEntry] using this
        exact ⟨b, hb, hban⟩

end Claims2

/-- C8, as stated, fails: for the identity `app1` and the declared banner path
`./banner.png` the stored banner path is `app1/banner.png`, which is not the
identity, a slash and the declared path. -/
theorem banner_path_not_concatenated :
    ∃ a, (merge app1Dot freshState).state.repo.entry "app1" = some a ∧
      a.Banner = "app1/banner.png" ∧
      a.Banner ≠ app1Dot.UniqueId ++ "/" ++ app1Dot.Banner :=
  ⟨_, rfl, by decide, by decide⟩
section Claims3
variable {W W2 : Type}

/-- C4: if a first run over the entries returns with the catalog `c`, a second
run over the same entries that starts from `c` calls `build` zero times and
runs no command; it does not panic and can only be ended by a failing `save`;
when it returns, it returns as the first run did and its catalog is the same
mapping from identities to entries as `c`; and it does return when every write
of the meta file succeeds. -/
theorem second_run_changes_nothing (env : Env W) (env2 : Env W2) (appsDir buildDir : Bool)
    (file : MetaFile) (es : List WalkEntry) (w : W) (w2 : W2) (x : Exit) (c : State W)
    (h : main env appsDir buildDir file es w = .ok x c) :
    (main env2 appsDir buildDir (.parsed c.repo) es w2).state.trace = [] ∧
    (main env2 appsDir buildDir (.parsed c.repo) es w2).isPanic = false ∧
    ((main env2 appsDir buildDir (.parsed c.repo) es w2).cause = none ∨
      (main env2 appsDir buildDir (.parsed c.repo) es w2).cause = some Cause.writeFile) ∧
    (∀ x2 c2, main env2 appsDir buildDir (.parsed c.repo) es w2 = .ok x2 c2 →
      x2 = x ∧ sameMapping c2.repo c.repo) ∧
    ((∀ v n r, (env2.writeFile v n r).isSome = true) →
      (main env2 appsDir buildDir (.parsed c.repo) es w2).isOk = true) := by
  rcases main_cases env appsDir buildDir file es w with ⟨hm, hdir⟩ | ⟨hm, _⟩ |
    ⟨hm, ha, hb, _⟩
  · -- a directory is missing: neither run does anything
    rw [hm] at h
    simp only [Res.ok.injEq] at h
    obtain ⟨hx, hc⟩ := h
    have h2 : main env2 appsDir buildDir (.parsed c.repo) es w2 =
        .ok .missingDir (initState w2 (.parsed c.repo)) := by
      unfold main mainFrom
      rcases hdir with rfl | rfl
      · rfl
      · cases appsDir <;> rfl
    rw [h2]
    refine ⟨rfl, rfl, Or.inl rfl, fun x2 c2 h3 => ?_, fun _ => rfl⟩
    simp only [Res.ok.injEq] at h3
    obtain ⟨h4, h5⟩ := h3
    subst h4 h5 hx
    refine ⟨rfl, ?_⟩
    rw [← hc]
    exact ⟨rfl, fun u => rfl⟩
  · rw [hm] at h; cases h
  · subst ha hb
    rw [hm] at h
    cases hfw : filepathWalk env es (loadState w file) with
    | fatal c1 t => rw [hfw] at h; cases h
    | panic t => rw [hfw] at h; cases h
    | ok err c1 =>
      rw [hfw] at h
      simp only [Res.map, Res.ok.injEq] at h
      obtain ⟨hx, hc⟩ := h
      subst hc
      obtain ⟨herr, hready, hslots⟩ := filepathWalk_returns env es _ c1 err hfw
      have h2 : main env2 true true (.parsed c1.repo) es w2 =
          (filepathWalk env2 es (loadState w2 (.parsed c1.repo))).map Exit.walked := by
        rcases main_cases env2 true true (.parsed c1.repo) es w2 with ⟨_, h | h⟩ | ⟨_, h, _⟩ |
          ⟨h, _⟩
        · cases h
        · cases h
        · cases h
        · exact h
      have hrepo : (loadState w2 (.parsed c1.repo) : State W2).repo = c1.repo := rfl
      obtain ⟨g1, g2, g3, g4, g5⟩ := filepathWalk_again env2 es
        (loadState w2 (.parsed c1.repo)) (by rw [hrepo]; exact hready)
      rw [h2, Res.map_state, Res.map_isPanic, Res.map_cause, Res.map_isOk]
      refine ⟨g1, g2, g3, fun x2 c2 h3 => ?_, g5⟩
      cases hfw2 : filepathWalk env2 es (loadState w2 (.parsed c1.repo)) with
      | fatal c3 t => rw [hfw2] at h3; cases h3
      | panic t => rw [hfw2] at h3; cases h3
      | ok err2 c3 =>
        rw [hfw2] at h3
        simp only [Res.map, Res.ok.injEq] at h3
        obtain ⟨hx2, hc2⟩ := h3
        subst hc2
        obtain ⟨k1, k2, k3⟩ := g4 err2 c3 hfw2
        refine ⟨by rw [← hx2, ← hx, k1, herr], ?_, fun u => ?_⟩
        · rw [k2, hrepo]
        · rw [k3 u, hrepo]
          have hu := hslots u
          cases hl : lastFor u (walked es) with
          | none => rfl
          | some m =>
            rw [hl] at hu
            obtain ⟨b, hb, hd⟩ := hu
            simp only
            have hent : c1.repo.entry u = some b := by
              simp only [RepositoryMetadata.entry, hb]; rfl
            rw [hent, mergedEntry_fixed m b hd, hb]

/-- C7, as amended: a run over a tree with a manifest file that does not decode
ends as the run over the entries before that file ends, with the same catalog
in memory and on disk and the same calls, except that where that run would
return having walked them all without error it returns with the decode error,
which `main` logs: the run is not ended by `log.Fatalln`, the malformed file
changes nothing, and no entry after it is processed. -/
theorem malformed_manifest_stops_walk (env : Env W) (appsDir buildDir : Bool)
    (file : MetaFile) (pre post : List WalkEntry) (bad : WalkEntry) (w : W)
    (hbad : bad.isMalformed) :
    main env appsDir buildDir file (pre ++ bad :: post) w =
      (main env appsDir buildDir file pre w).exitStoppedBy .unmarshal := by
  rcases main_cases env appsDir buildDir file pre w with ⟨hm, hdir⟩ | ⟨hm, hf, ha, hb⟩ |
    ⟨hm, ha, hb, hf⟩
  · rw [hm]
    unfold main mainFrom
    rcases hdir with rfl | rfl
    · rfl
    · cases appsDir <;> rfl
  · rw [hm]
    subst hf ha hb
    rfl
  · subst ha hb
    rw [hm]
    rcases main_cases env true true file (pre ++ bad :: post) w with ⟨_, h | h⟩ | ⟨_, h, _⟩ |
      ⟨h, _⟩
    · cases h
    · cases h
    · exact absurd h hf
    · rw [h, filepathWalk_malformed env pre post bad hbad]
      cases filepathWalk env pre (loadState w file) with
      | ok r t => cases r <;> rfl
      | fatal c t => rfl
      | panic t => rfl

end Claims3

/-- C7, as stated, fails: a run over a tree whose only file is a manifest that
does not decode is not ended by `log.Fatalln`; `main` returns normally. -/
theorem malformed_manifest_not_fatal :
    (main okEnv true true MetaFile.absent [brokenFile] 0).isFatal = false ∧
    (main okEnv true true MetaFile.absent [brokenFile] 0).isOk = true := by
  decide
/-! ## The theorems at work on the small tree -/

/-- The record of `v1.0` built by a first run is still there after the edited
manifest, which declares `v1.0` again, has been processed. -/
theorem walk_keeps_build_records_witness :
    builtState.repo.record "app1" "v1.0" = some (some record1) ∧
    (walk okEnv app1LaterFile builtState).state.repo.record "app1" "v1.0" =
      some (some record1) ∧
    (filepathWalk okEnv [app1LaterFile, app1File] builtState).state.repo.record "app1" "v1.0" =
      some (some record1) :=
  ⟨by decide!, walk_keeps_build_records okEnv app1LaterFile [app1LaterFile, app1File] builtState
    "app1" "v1.0" (some record1) (by decide!)⟩

/-- The merge of the edited manifest into the catalog of the first run
returns. -/
theorem merge_upserts_entry_witness :
    builtState.repo.Apps ≠ none ∧ builtState.repo.slot app1Later.UniqueId ≠ some none ∧
    (merge app1Later builtState).isOk = true :=
  ⟨by decide!, by decide!,
    (merge_upserts_entry app1Later builtState).2 (by decide!) (by decide!)⟩

/-- The `build` calls for the edited manifest after the first run. -/
theorem walk_builds_exactly_unbuilt_witness :
    app1LaterFile.isManifest app1Later ∧
    ∃ evs, (walk okEnv app1LaterFile builtState).state.trace = builtState.trace ++ evs ∧
      (buildCalls evs).Nodup ∧
      (∀ p ∈ buildCalls evs, p.1 = app1Later.UniqueId ∧
        p.2 ∈ GoMap.keys app1Later.Releases ∧
        builtState.repo.record app1Later.UniqueId p.2 = none) ∧
      ((walk okEnv app1LaterFile builtState).isOk = true →
        ∀ k ∈ GoMap.keys app1Later.Releases,
          builtState.repo.record app1Later.UniqueId k = none →
          (app1Later.UniqueId, k) ∈ buildCalls evs) :=
  ⟨by decide, walk_builds_exactly_unbuilt okEnv app1LaterFile app1Later builtState (by decide)⟩

/-- A first run without a container runtime dies in the build of `v1.0`. -/
theorem build_failure_keeps_saved_catalog_witness :
    main noDockerEnv true true MetaFile.absent [app1File] 0 =
      .fatal .run (main noDockerEnv true true MetaFile.absent [app1File] 0).state ∧
    ∃ e app tag mem D pre post, e ∈ [app1File] ∧ e.isManifest app ∧
      tag ∈ GoMap.keys app.Releases ∧
      (main noDockerEnv true true MetaFile.absent [app1File] 0).state.trace =
        pre ++ Event.build app.UniqueId tag mem (some D) :: post ∧
      buildCalls post = [] ∧
      (main noDockerEnv true true MetaFile.absent [app1File] 0).state.disk = some D ∧
      sameCatalog D mem ∧ D.record app.UniqueId tag = none :=
  ⟨Res.eq_fatal (by decide!),
    build_failure_keeps_saved_catalog noDockerEnv true true MetaFile.absent [app1File] 0
      Cause.run _ (Res.eq_fatal (by decide!)) (Or.inr (Or.inl rfl))⟩

/-- The `build` call of a first run over the manifest of `app1`. -/
theorem build_call_sees_saved_catalog_witness :
    Event.build "app1" "v1.0" (mergedCatalog.initReleases "app1" (mergedEntry app1 none))
        (some mergedCatalog) ∈
      (main okEnv true true MetaFile.absent [app1File] 0).state.trace ∧
    ∃ D, some mergedCatalog = some D ∧
      sameCatalog D (mergedCatalog.initReleases "app1" (mergedEntry app1 none)) :=
  ⟨by decide!, build_call_sees_saved_catalog okEnv true true MetaFile.absent [app1File] 0
    "app1" "v1.0" _ _ (by decide!)⟩

/-- The banner path of `app1` after the merge into the empty catalog, and after
the whole step. -/
theorem banner_path_is_joined_witness :
    app1File.isManifest app1 ∧ freshState.repo.Apps ≠ none ∧
    freshState.repo.slot app1.UniqueId ≠ some none ∧
    (merge app1 freshState).isOk = true ∧
    ∃ a, (walk okEnv app1File freshState).state.repo.entry app1.UniqueId = some a ∧
      a.Banner = GoPath.join [app1.UniqueId, app1.Banner] :=
  ⟨by decide, by decide, by decide,
    (banner_path_is_joined okEnv app1File app1 freshState (by decide)).2 (by decide)
      (by decide)⟩

/-- The record written for `v1.0` by a first run over the manifest of `app1`. -/
theorem walk_writes_release_paths_witness :
    app1File.isManifest app1 ∧ GoPath.plainSeg app1.UniqueId = true ∧
    GoPath.plainSeg "v1.0" = true ∧ "v1.0" ∈ GoMap.keys app1.Releases ∧
    freshState.repo.record app1.UniqueId "v1.0" = none ∧
    (walk okEnv app1File freshState).state.repo.record app1.UniqueId "v1.0" =
      some (some record1) ∧
    ∃ rel tar xdc, GoMap.index app1.Releases "v1.0" = some rel ∧
      some record1 = some
        { Image := rel.Image
          Command := rel.Command
          SourceTarball := app1.UniqueId ++ "/" ++ "v1.0" ++ "/" ++ app1.UniqueId ++ ".tar.gz"
          WebXDCDownload := app1.UniqueId ++ "/" ++ "v1.0" ++ "/" ++ app1.UniqueId ++ ".xdc"
          XdcSha512sum := xdc
          TarSha512sum := tar } :=
  ⟨by decide, by decide, by decide, by decide, by decide, by decide!,
    (walk_writes_release_paths okEnv app1File app1 freshState "v1.0" (by decide) (by decide)
      (by decide) (by decide) (by decide)).1 (some record1) (by decide!)⟩

/-- A first run over the manifest of `app1` does not panic. -/
theorem walk_does_not_panic_witness :
    freshState.repo.Apps ≠ none ∧ (∀ uid, freshState.repo.slot uid ≠ some none) ∧
    (∀ app, app1File.manifest? = some app →
      ∀ k, GoMap.get? (app.Releases.getD []) k ≠ some none) ∧
    (walk okEnv app1File freshState).isPanic = false :=
  have hE : ∀ uid, freshState.repo.slot uid ≠ some none := fun _ h => by cases h
  have hR : ∀ app, app1File.manifest? = some app →
      ∀ k, GoMap.get? (app.Releases.getD []) k ≠ some none := by
    intro app h k
    have e : app1 = app := Option.some.inj h
    subst e
    simp only [app1, Option.getD_some, GoMap.get?]
    split <;> simp
  ⟨by decide, hE, hR, (walk_does_not_panic okEnv app1File freshState (by decide) hE hR).1⟩

/-- A second run over the manifest of `app1` and its edited version. -/
theorem second_run_changes_nothing_witness :
    main okEnv true true MetaFile.absent [app1File, app1LaterFile] 0 =
      .ok (.walked none)
        (main okEnv true true MetaFile.absent [app1File, app1LaterFile] 0).state ∧
    (main okEnv true true
      (.parsed (main okEnv true true MetaFile.absent [app1File, app1LaterFile] 0).state.repo)
      [app1File, app1LaterFile] 100).state.trace = [] :=
  ⟨Res.eq_ok (by decide!), (second_run_changes_nothing okEnv okEnv true true MetaFile.absent
    [app1File, app1LaterFile] 0 100 (.walked none) _ (Res.eq_ok (by decide!))).1⟩

/-- A tree with a broken manifest between the two manifests of `app1`. -/
theorem malformed_manifest_stops_walk_witness :
    brokenFile.isMalformed ∧
    main okEnv true true MetaFile.absent ([app1File] ++ brokenFile :: [app1LaterFile]) 0 =
      (main okEnv true true MetaFile.absent [app1File] 0).exitStoppedBy .unmarshal :=
  ⟨by decide, malformed_manifest_stops_walk okEnv true true MetaFile.absent [app1File]
    [app1LaterFile] brokenFile 0 (by decide)⟩
end Marketplace
